import Mathlib

/-
Verification development for the write-a-book repository.

The Python modules under src/book_editor are shallowly embedded below:
mutable objects become records, in-place mutation becomes explicit state
passing, and a raised Python exception becomes an error value paired with
the state the object holds at the moment the exception escapes (a Python
exception leaves already-performed attribute assignments in place).
Timestamps (datetime.now()) are modelled as explicit natural-number
parameters supplied at each call.
-/

namespace Spec2Proof

/-- Python runtime values that can appear in a Document metadata dict in the
embedded fragment: strings, ints, datetime objects (abstracted to a Nat
tick) and None. -/
inductive PyVal where
  | VStr : String → PyVal
  | VInt : Int → PyVal
  | VTime : Nat → PyVal
  | VNone : PyVal
deriving DecidableEq, Repr

/-- Python exception kinds raised or caught in the embedded fragment, with
their message. -/
inductive PyErr where
  | valueError : String → PyErr
  | typeError : String → PyErr
  | osError : PyErr
  | jsonDecodeError : PyErr
deriving DecidableEq, Repr

/-- Python truthiness for the embedded values: empty string, zero and None
are falsy; datetime objects are always truthy. -/
def pyFalsy : PyVal → Bool
  | .VStr s => s = ""
  | .VInt n => n = 0
  | .VTime _ => false
  | .VNone => true

/-- A Python dict with string keys, as an insertion-ordered association
list.  All dict-building operations below keep keys duplicate-free, as
Python dicts do. -/
abbrev Dct (α : Type) := List (String × α)

/-- Python d[k] lookup returning an option (first matching key). -/
def dget {α : Type} (d : Dct α) (k : String) : Option α :=
  match d with
  | [] => none
  | (k0, v0) :: rest => if k0 = k then some v0 else dget rest k

/-- Python d[k] = v: overwrite the entry in place if the key is present
(at its existing position), otherwise append it at the end, as Python
insertion order does.  Keys of a Python dict are unique, so replacing the
first occurrence is the general behaviour. -/
def dset {α : Type} : Dct α → String → α → Dct α
  | [], k, v => [(k, v)]
  | (k0, v0) :: rest, k, v =>
      if k0 = k then (k, v) :: rest else (k0, v0) :: dset rest k v

/-- Python d.update(m): fold the entries of m into d left to right. -/
def dupd {α : Type} (d m : Dct α) : Dct α :=
  m.foldl (fun acc p => dset acc p.1 p.2) d

/-- Keys of a dict are pairwise distinct; holds for every real Python dict
and is preserved by dset and dupd. -/
def DKeysOk {α : Type} (d : Dct α) : Prop :=
  (d.map Prod.fst).Nodup

instance {α : Type} (d : Dct α) : Decidable (DKeysOk d) := by
  unfold DKeysOk; infer_instance

@[simp] theorem dget_nil {α : Type} (k : String) : dget ([] : Dct α) k = none := rfl

theorem dget_cons {α : Type} (k0 : String) (v0 : α) (rest : Dct α) (k : String) :
    dget ((k0, v0) :: rest) k = if k0 = k then some v0 else dget rest k := rfl

theorem dget_dset_self {α : Type} (d : Dct α) (k : String) (v : α) :
    dget (dset d k v) k = some v := by
  induction d with
  | nil => simp [dset, dget]
  | cons p rest ih =>
    rcases p with ⟨k0, v0⟩
    by_cases hk : k0 = k
    · simp [dset, hk, dget]
    · simp [dset, hk, dget_cons, ih]

theorem dget_dset_ne {α : Type} (d : Dct α) (k k' : String) (v : α) (hne : k ≠ k') :
    dget (dset d k v) k' = dget d k' := by
  induction d with
  | nil => simp [dset, dget, hne]
  | cons p rest ih =>
    rcases p with ⟨k0, v0⟩
    by_cases hk : k0 = k
    · subst hk
      simp [dset, dget_cons, hne, ih]
    · simp only [dset, if_neg hk, dget_cons]
      by_cases hk' : k0 = k'
      · simp [hk']
      · simp [hk', ih]

theorem dget_eq_none_of_not_mem_keys {α : Type} (d : Dct α) (k : String)
    (h : k ∉ d.map Prod.fst) : dget d k = none := by
  induction d with
  | nil => rfl
  | cons p rest ih =>
    rcases p with ⟨k0, v0⟩
    simp only [List.map_cons, List.mem_cons, not_or] at h
    rw [dget_cons, if_neg (fun he => h.1 he.symm)]
    exact ih h.2

/-- Lookup in an updated dict: entries of m win when m has duplicate-free
keys; otherwise d shows through. -/
theorem dget_dupd {α : Type} (d m : Dct α) (k : String) (hm : DKeysOk m) :
    dget (dupd d m) k = match dget m k with
      | some v => some v
      | none => dget d k := by
  induction m generalizing d with
  | nil => simp [dupd, dget]
  | cons p rest ih =>
    unfold DKeysOk at hm
    simp only [List.map_cons, List.nodup_cons] at hm
    have step : dupd d (p :: rest) = dupd (dset d p.1 p.2) rest := rfl
    rw [step, ih _ hm.2]
    rcases p with ⟨k0, v0⟩
    simp only [dget_cons]
    by_cases hk : k0 = k
    · subst hk
      rw [dget_eq_none_of_not_mem_keys rest k0 hm.1]
      simp [dget_dset_self]
    · simp only [if_neg hk]
      cases hrest : dget rest k with
      | some v => simp
      | none => simp [dget_dset_ne _ _ _ _ hk]

theorem dget_mem {α : Type} (d : Dct α) (k : String) (v : α) (h : dget d k = some v) :
    (k, v) ∈ d := by
  induction d with
  | nil => simp [dget] at h
  | cons p rest ih =>
    rcases p with ⟨k0, v0⟩
    simp only [dget_cons] at h
    by_cases hk : k0 = k
    · subst hk
      rw [if_pos rfl] at h
      cases h
      exact List.mem_cons_self _ _
    · rw [if_neg hk] at h
      exact List.mem_cons_of_mem _ (ih h)

/-!  Embedding of src/book_editor/core/document.py (class Document).

The document object state is a record; each mutating method returns the
updated state together with an optional raised exception.  When a method
raises, the returned state contains exactly the attribute assignments the
Python method performed before the raise.  datetime.now() is an explicit
Nat parameter.  The version attribute is a PyVal because from_dict copies
whatever value the parsed JSON carries into self.version. -/

/-- State of a core Document object: content, version, metadata dict,
undo history list and history cursor. -/
structure Doc where
  content : String
  version : PyVal
  metadata : Dct PyVal
  history : List String
  historyIndex : Nat
deriving DecidableEq, Repr

namespace Doc

/-- Python x + 1 on an embedded value: succeeds on ints, raises TypeError
otherwise (datetime and None do not support + with an int; str + int is a
TypeError). -/
def pyAddOne : PyVal → Except PyErr PyVal
  | .VInt n => .ok (.VInt (n + 1))
  | _ => .error (.typeError "unsupported operand types for +")

/-- Python x - 1 on an embedded value. -/
def pySubOne : PyVal → Except PyErr PyVal
  | .VInt n => .ok (.VInt (n - 1))
  | _ => .error (.typeError "unsupported operand types for -")

/-- Document.__init__(title, author, content): raises ValueError on a falsy
title or author, otherwise builds the initial state.  The two datetime.now()
calls are the parameters t1 and t2.  Source: document.py lines 12-38. -/
def init (title author : PyVal) (content : String) (t1 t2 : Nat) :
    Except PyErr Doc :=
  if pyFalsy title then .error (.valueError "Document title cannot be empty")
  else if pyFalsy author then .error (.valueError "Document author cannot be empty")
  else .ok {
    content := content
    version := .VInt 1
    metadata := [("title", title), ("author", author),
                 ("created_at", .VTime t1), ("updated_at", .VTime t2),
                 ("version", .VInt 1)]
    history := [content]
    historyIndex := 0 }

/-- Document.set_content(content): raises ValueError on empty content;
no-op when content equals the current content; otherwise assigns content,
increments version, refreshes updated_at and metadata version, truncates
the redo branch and appends the new content.  When version += 1 raises
TypeError (non-int version), the content assignment has already happened.
Source: document.py lines 70-89. -/
def set_content (d : Doc) (content : String) (now : Nat) : Doc × Option PyErr :=
  if content = "" then (d, some (.valueError "Document content cannot be empty"))
  else if content ≠ d.content then
    match pyAddOne d.version with
    | .error e => ({ d with content := content }, some e)
    | .ok v =>
        let md := dset (dset d.metadata "updated_at" (.VTime now)) "version" v
        let hist := d.history.take (d.historyIndex + 1) ++ [content]
        (⟨content, v, md, hist, hist.length - 1⟩, none)
  else (d, none)

/-- Document.update_metadata(metadata): raises ValueError when the argument
supplies a falsy title or author; merges the argument into the metadata
dict; bumps version, updated_at and metadata version only when the merge
changed the dict.  When version += 1 raises TypeError the merge has already
happened.  Source: document.py lines 110-129. -/
def update_metadata (d : Doc) (m : Dct PyVal) (now : Nat) : Doc × Option PyErr :=
  if (dget m "title").any pyFalsy then
    (d, some (.valueError "Document title cannot be empty"))
  else if (dget m "author").any pyFalsy then
    (d, some (.valueError "Document author cannot be empty"))
  else if dupd d.metadata m ≠ d.metadata then
    match pyAddOne d.version with
    | .error e => ({ d with metadata := dupd d.metadata m }, some e)
    | .ok v =>
        ({ d with
            metadata := dset (dset (dupd d.metadata m) "updated_at" (.VTime now)) "version" v
            version := v }, none)
  else ({ d with metadata := dupd d.metadata m }, none)

/-- Document.undo(): moves the cursor one step back when possible, restores
the content snapshot, decrements version and refreshes the metadata; no-op
at the start of the history.  Indexing the history is total here because
the cursor stays within bounds on every state the class creates.
Source: document.py lines 131-138. -/
def undo (d : Doc) (now : Nat) : Doc × Option PyErr :=
  if d.historyIndex > 0 then
    let i := d.historyIndex - 1
    let c := d.history.getD i ""
    match pySubOne d.version with
    | .error e => ({ d with historyIndex := i, content := c }, some e)
    | .ok v =>
        ({ d with
            historyIndex := i
            content := c
            version := v
            metadata := dset (dset d.metadata "updated_at" (.VTime now)) "version" v },
         none)
  else (d, none)

/-- Document.redo(): moves the cursor one step forward when possible,
restores the snapshot and increments version; no-op at the end of the
history.  Source: document.py lines 140-147. -/
def redo (d : Doc) (now : Nat) : Doc × Option PyErr :=
  if d.historyIndex + 1 < d.history.length then
    let i := d.historyIndex + 1
    let c := d.history.getD i ""
    match pyAddOne d.version with
    | .error e => ({ d with historyIndex := i, content := c }, some e)
    | .ok v =>
        ({ d with
            historyIndex := i
            content := c
            version := v
            metadata := dset (dset d.metadata "updated_at" (.VTime now)) "version" v },
         none)
  else (d, none)

end Doc

/-- Parsed JSON content of a document file, restricted to the shape the
embedded fragment exercises: an optional string content entry and an
optional metadata object whose values are flat PyVals.  The datetime
serialization boundary is abstracted: an ISO timestamp string is the
decimal rendering of the Nat tick, so fromisoformat becomes String.toNat?
(a non-numeric string is a malformed timestamp). -/
structure DocData where
  content : Option String
  metadata : Option (Dct PyVal)
deriving DecidableEq, Repr

/-- datetime.fromisoformat applied to a parsed JSON value: parses a
well-formed timestamp string, raises ValueError on a malformed string and
TypeError on a non-string argument. -/
def fromIso : PyVal → Except PyErr PyVal
  | .VStr s =>
      match s.toNat? with
      | some n => .ok (.VTime n)
      | none => .error (.valueError "Invalid isoformat string")
  | _ => .error (.typeError "fromisoformat argument must be str")

namespace Doc

/-- The timestamp-refresh step of Document.from_dict for one key: when the
source metadata carries the key, parse it with fromisoformat and store the
result in the document metadata; errors of the parse propagate. -/
def refreshTime (md : Dct PyVal) (key : String) (src : Dct PyVal) :
    Except PyErr (Dct PyVal) :=
  match dget src key with
  | none => .ok md
  | some v =>
      match fromIso v with
      | .error e => .error e
      | .ok t => .ok (dset md key t)

/-- Document.from_dict(data): raises ValueError when metadata or its title
or author entry is missing, builds the document through the constructor,
then overwrites content, version (with whatever value the data carries,
defaulting to 1), both timestamps when present, and resets the history.
Source: document.py lines 160-204.  The constructor timestamps are t1, t2. -/
def from_dict (data : DocData) (t1 t2 : Nat) : Except PyErr Doc :=
  match data.metadata with
  | none => .error (.valueError "Document data must include metadata")
  | some md =>
    match dget md "title" with
    | none => .error (.valueError "Document metadata must include title")
    | some title =>
      match dget md "author" with
      | none => .error (.valueError "Document metadata must include author")
      | some author =>
        match init title author "" t1 t2 with
        | .error e => .error e
        | .ok doc =>
          match refreshTime
              (dset doc.metadata "version" ((dget md "version").getD (.VInt 1)))
              "created_at" md with
          | .error e => .error e
          | .ok md1 =>
            match refreshTime md1 "updated_at" md with
            | .error e => .error e
            | .ok md2 =>
                .ok { content := data.content.getD ""
                      version := (dget md "version").getD (.VInt 1)
                      metadata := md2
                      history := [data.content.getD ""]
                      historyIndex := 0 }

end Doc

/-- Content of one on-disk JSON file as the loader sees it after the read:
text that fails JSON decoding, a JSON value that is not an object, or an
object of the embedded document shape. -/
inductive FileContent where
  | malformed : FileContent
  | nonObject : FileContent
  | objectData : DocData → FileContent
deriving DecidableEq, Repr

/-- A directory of files: path to content. -/
abbrev FileSys := List (String × FileContent)

namespace Doc

/-- Document.load(path): returns None when the file is missing (OSError),
fails JSON decoding, is not a JSON object, or from_dict raises ValueError;
any other exception escaping from_dict propagates.  Source: document.py
lines 221-237. -/
def load (fs : FileSys) (path : String) (t1 t2 : Nat) :
    Except PyErr (Option Doc) :=
  match dget fs path with
  | none => .ok none
  | some .malformed => .ok none
  | some .nonObject => .ok none
  | some (.objectData data) =>
      match from_dict data t1 t2 with
      | .ok d => .ok (some d)
      | .error (.valueError _) => .ok none
      | .error e => .error e

end Doc

/-- Embedding of src/book_editor/core/document_manager.py
(DocumentManager.load_document): builds the storage path, raises ValueError
when the file does not exist or Document.load returns None, and wraps any
exception escaping the try block in a ValueError.  Source:
document_manager.py lines 45-67. -/
def DocumentManager.load_document (storageDir : String) (fs : FileSys)
    (docId : String) (t1 t2 : Nat) : Except PyErr Doc :=
  let path := storageDir ++ "/" ++ docId ++ ".json"
  if dget fs path = none then
    .error (.valueError ("Failed to load document: Document " ++ docId ++ " does not exist"))
  else
    match Doc.load fs path t1 t2 with
    | .ok none => .error (.valueError ("Failed to load document: Failed to load document " ++ docId))
    | .ok (some d) => .ok d
    | .error _ => .error (.valueError "Failed to load document: wrapped exception")

/-!  Embedding of src/book_editor/core/template.py (class Template and the
TemplateManager defined in the same file).

The styles attribute is typed as the three-level mapping the class
maintains (category → style name → CSS property → value) and layouts as an
ordered list of property dicts, matching the annotations and every
constructor in the source.  Metadata is a dict whose values are strings,
string lists (tags) or ints. -/

/-- One level of CSS properties: property name → value string. -/
abbrev Props := Dct String

/-- A style category: style name → properties. -/
abbrev StyleCat := Dct Props

/-- The styles mapping: category name → style category. -/
abbrev Styles := Dct StyleCat

set_option synthInstance.maxSize 1024 in
instance : DecidableEq Styles := inferInstance

set_option synthInstance.maxSize 1024 in
instance : DecidableEq (Option Styles) := inferInstance

/-- Template metadata values: description strings, tag lists, ints. -/
inductive MVal where
  | MStr : String → MVal
  | MList : List String → MVal
  | MInt : Int → MVal
deriving DecidableEq, Repr

/-- Template metadata dict. -/
abbrev TMeta := Dct MVal

/-- VALID_FORMATS from template.py. -/
def validFormats : List String := ["markdown", "html", "text"]

/-- State of a Template object. -/
structure Template where
  name : String
  category : String
  metadata : TMeta
  styles : Styles
  layouts : List Props
deriving DecidableEq, Repr

namespace Template

/-- Template.__init__(name, category): raises ValueError on an empty name
or category, then seeds the default metadata, styles and layouts.
Source: template.py lines 35-81. -/
def init (name category : String) : Except PyErr Template :=
  if name = "" then .error (.valueError "Template name cannot be empty")
  else if category = "" then .error (.valueError "Template category cannot be empty")
  else .ok {
    name := name
    category := category
    metadata := [("description", .MStr ""), ("tags", .MList []), ("format", .MStr "markdown")]
    styles :=
      [("borders", [("classic",
          [("border", "2px solid #8B4513"), ("border-radius", "8px"),
           ("background-color", "#FFF8DC")])]),
       ("fonts", [("default",
          [("font-family", "Courier New"), ("font-size", "12pt"),
           ("line-height", "2"), ("margin", "2.54cm")])])]
    layouts := [[("font-family", "Courier New"), ("font-size", "12pt"),
                 ("line-height", "2"), ("margin", "2.54cm")]] }

/-- Template.validate(): raises ValueError on an empty name or category, a
missing or invalid format, or a non-list tags entry; the dict and list
shape checks of the source hold by typing here.  Source: template.py
lines 83-112. -/
def validate (t : Template) : Except PyErr Bool :=
  if t.name = "" then .error (.valueError "Template name cannot be empty")
  else if t.category = "" then .error (.valueError "Template category cannot be empty")
  else
    match dget t.metadata "format" with
    | none => .error (.valueError "Template metadata must include format")
    | some (.MStr f) =>
        if f ∈ validFormats then
          match dget t.metadata "tags" with
          | none => .ok true
          | some (.MList _) => .ok true
          | some _ => .error (.valueError "Template tags must be a list")
        else .error (.valueError "Invalid format")
    | some _ => .error (.valueError "Invalid format")

/-- The dictionary produced by Template.to_dict and consumed by
Template.from_dict; from_dict tolerates missing keys, hence the options. -/
structure TData where
  name : Option String
  category : Option String
  metadata : Option TMeta
  styles : Option Styles
  layouts : Option (List Props)
deriving DecidableEq, Repr

/-- Template.to_dict(): validates, then returns the five attributes as a
dict (the nested copies are value copies here).  Source: template.py
lines 151-170. -/
def to_dict (t : Template) : Except PyErr TData :=
  match validate t with
  | .error e => .error e
  | .ok _ =>
      .ok ⟨some t.name, some t.category, some t.metadata, some t.styles, some t.layouts⟩

/-- Template.from_dict(data): raises ValueError when name or category is
missing, builds the template through the constructor, overwrites metadata,
styles and layouts when present, and validates the result.  Source:
template.py lines 172-204. -/
def from_dict (data : TData) : Except PyErr Template :=
  match data.name with
  | none => .error (.valueError "Template data must include name")
  | some name =>
    match data.category with
    | none => .error (.valueError "Template data must include category")
    | some category =>
      match init name category with
      | .error e => .error e
      | .ok t =>
        match validate ⟨t.name, t.category, data.metadata.getD t.metadata,
            data.styles.getD t.styles, data.layouts.getD t.layouts⟩ with
        | .error e => .error e
        | .ok _ =>
            .ok ⟨t.name, t.category, data.metadata.getD t.metadata,
                 data.styles.getD t.styles, data.layouts.getD t.layouts⟩

/-- Template.merge_styles(source): for every category of the source, create
the category when absent and update it with the source styles (colliding
style names are overwritten by the source).  Source: template.py
lines 342-359. -/
def merge_styles (dst src : Styles) : Styles :=
  src.foldl (fun acc p => dset acc p.1 (dupd ((dget acc p.1).getD []) p.2)) dst

/-- Template.merge(source): overwrites metadata entries with the source
ones, merges styles, and appends a copy of every source layout.  Source:
template.py lines 361-392. -/
def merge (t src : Template) : Template :=
  { t with
      metadata := dupd t.metadata src.metadata
      styles := merge_styles t.styles src.styles
      layouts := t.layouts ++ src.layouts }

end Template

/-- State of the TemplateManager defined in template.py: the template
directory and the category set (seeded with general).  Source: template.py
lines 468-493. -/
structure TmplMgr where
  templateDir : String
  categories : List String
deriving DecidableEq, Repr

namespace TmplMgr

/-- TemplateManager.__init__(template_dir). -/
def init (dir : String) : TmplMgr := { templateDir := dir, categories := ["general"] }

/-- TemplateManager.add_category(category): false on an empty or already
registered name, otherwise registers it. -/
def add_category (tm : TmplMgr) (category : String) : TmplMgr × Bool :=
  if category = "" then (tm, false)
  else if category ∈ tm.categories then (tm, false)
  else ({ tm with categories := tm.categories ++ [category] }, true)

/-- TemplateManager.get_categories(): a copy of the category set; in the
value model the copy is the value itself. -/
def get_categories (tm : TmplMgr) : List String := tm.categories

/-- A directory of template files: path to parsed content (none marks a
file left truncated by a failed dump) plus the set of paths whose open or
write raises OSError. -/
structure TmplFs where
  files : Dct (Option Template.TData)
  failing : List String
deriving DecidableEq, Repr

/-- TemplateManager.save_template(template): false when the name or the
category is empty or the category is not registered, all before any file
is touched; otherwise opens the file and dumps to_dict().  An OSError is
caught and reported as false; a ValueError raised by to_dict propagates
out of the except clause, after the open already truncated the file.
Source: template.py lines 527-547. -/
def save_template (tm : TmplMgr) (fs : TmplFs) (t : Template) :
    Except PyErr Bool × TmplFs :=
  if t.name = "" ∨ t.category = "" then (.ok false, fs)
  else if t.category ∉ tm.categories then (.ok false, fs)
  else
    let path := tm.templateDir ++ "/" ++ t.name ++ ".json"
    if path ∈ fs.failing then (.ok false, fs)
    else
      match Template.to_dict t with
      | .error e => (.error e, { fs with files := dset fs.files path none })
      | .ok td => (.ok true, { fs with files := dset fs.files path (some td) })

end TmplMgr

/-!  Embedding of src/book_editor/app/core/editor.py (DocumentManager and
AppEditor), restricted to the save path.  The Document here is the
core/editor.py Document; only the attributes these methods read appear.
The JSON dump is abstracted: a successful write stores the document value
at the path. -/

/-- A core/editor.py Document as the app save path sees it. -/
structure EDoc where
  title : String
  content : String
deriving DecidableEq, Repr

/-- A directory for app documents plus the set of paths whose open or
write raises IOError. -/
structure AppFs where
  files : Dct EDoc
  failing : List String
deriving DecidableEq, Repr

/-- State of the app DocumentManager: the storage directory and the
in-memory document registry. -/
structure AppDM where
  storageDir : String
  documents : Dct EDoc
deriving DecidableEq, Repr

/-- DocumentManager.save_document(doc): registers the document, then opens
the file and dumps it; an IOError is caught, logged and reported as false
(the registry update has already happened).  Source: app/core/editor.py
lines 73-85. -/
def AppDM.save_document (dm : AppDM) (fs : AppFs) (doc : EDoc) :
    (AppDM × AppFs) × Bool :=
  if dm.storageDir ++ "/" ++ doc.title ++ ".json" ∈ fs.failing then
    (({ dm with documents := dset dm.documents doc.title doc }, fs), false)
  else
    (({ dm with documents := dset dm.documents doc.title doc },
      { fs with
          files := dset fs.files (dm.storageDir ++ "/" ++ doc.title ++ ".json") doc }),
     true)

/-- State of the AppEditor: its document manager and the current document
reference (the template renderer and preview manager play no part in the
save path). -/
structure AppEditor where
  dm : AppDM
  currentDocument : Option EDoc
deriving DecidableEq, Repr

/-- AppEditor.save_document(): delegates to the document manager when a
current document exists, otherwise returns False without touching
anything.  Source: app/core/editor.py lines 326-330. -/
def AppEditor.save_document (ed : AppEditor) (fs : AppFs) :
    (AppEditor × AppFs) × Bool :=
  match ed.currentDocument with
  | some d =>
      (({ ed with dm := (ed.dm.save_document fs d).1.1 },
        (ed.dm.save_document fs d).1.2),
       (ed.dm.save_document fs d).2)
  | none => ((ed, fs), false)

/-!  A heap model for the accessor claims: Python dict and list objects
live at addresses; an accessor that returns self.attribute hands out the
stored address, while one that returns self.attribute.copy() allocates a
fresh address holding the same value.  Mutating statements such as
obj[key] = value act on the value stored at an address. -/

/-- A heap of Python objects of value type α. -/
structure Heap (α : Type) where
  entries : List (Nat × α)
  next : Nat

/-- Address lookup in a heap entry list. -/
def aget {α : Type} : List (Nat × α) → Nat → Option α
  | [], _ => none
  | (b, v) :: rest, a => if b = a then some v else aget rest a

/-- Dereference an address. -/
def hget {α : Type} (h : Heap α) (a : Nat) : Option α :=
  aget h.entries a

/-- Apply a mutation to the entry at an address. -/
def amod {α : Type} : List (Nat × α) → Nat → (α → α) → List (Nat × α)
  | [], _, _ => []
  | (b, v) :: rest, a, f =>
      if b = a then (a, f v) :: amod rest a f else (b, v) :: amod rest a f

/-- Mutate the object at an address in place. -/
def hmodify {α : Type} (h : Heap α) (a : Nat) (f : α → α) : Heap α :=
  { h with entries := amod h.entries a f }

/-- Allocate a fresh object. -/
def halloc {α : Type} (h : Heap α) (v : α) : Nat × Heap α :=
  (h.next, { entries := (h.next, v) :: h.entries, next := h.next + 1 })

/-- Every stored address is below the allocation counter. -/
def Heap.WF {α : Type} (h : Heap α) : Prop :=
  ∀ p ∈ h.entries, p.1 < h.next

instance {α : Type} (h : Heap α) : Decidable h.WF := by
  unfold Heap.WF; infer_instance

/-- A core Document object reference layout for the accessor model: the
metadata dict lives at an address. -/
structure DocObj where
  metadataRef : Nat
deriving DecidableEq, Repr

/-- Document.get_metadata(): return self.metadata.copy() — allocates a new
dict with the same entries and returns its address.  Source: document.py
lines 102-108. -/
def DocObj.get_metadata (d : DocObj) (h : Heap (Dct PyVal)) :
    Nat × Heap (Dct PyVal) :=
  halloc h ((hget h d.metadataRef).getD [])

/-- A Template object reference layout for the accessor model. -/
structure TmplObj where
  stylesRef : Nat
deriving DecidableEq, Repr

/-- Template.__getitem__ for the styles key: return self.styles — hands out
the internal reference itself.  Source: template.py lines 244-266. -/
def TmplObj.getitem_styles (t : TmplObj) : Nat :=
  t.stylesRef

/-- A core/editor.py Document object reference layout for the accessor
model: the revision history list lives at an address. -/
structure EdDocObj where
  revisionHistoryRef : Nat
deriving DecidableEq, Repr

/-- Document.get_revision_history(): return self._revision_history — hands
out the internal reference itself.  Source: core/editor.py lines 98-100. -/
def EdDocObj.get_revision_history (d : EdDocObj) : Nat :=
  d.revisionHistoryRef

theorem aget_amod_ne {α : Type} (l : List (Nat × α)) (a b : Nat) (f : α → α)
    (hne : b ≠ a) : aget (amod l a f) b = aget l b := by
  induction l with
  | nil => rfl
  | cons p rest ih =>
    rcases p with ⟨c, v⟩
    by_cases hc : c = a
    · subst hc
      simp only [amod, if_pos rfl, aget]
      rw [if_neg (fun he => hne he.symm), if_neg (fun he => hne he.symm)]
      exact ih
    · simp only [amod, if_neg hc, aget]
      by_cases hb : c = b
      · simp [hb]
      · simp [hb, ih]

theorem aget_amod_self {α : Type} (l : List (Nat × α)) (a : Nat) (f : α → α)
    (v : α) (hv : aget l a = some v) : aget (amod l a f) a = some (f v) := by
  induction l with
  | nil => simp [aget] at hv
  | cons p rest ih =>
    rcases p with ⟨c, w⟩
    by_cases hc : c = a
    · subst hc
      simp only [aget, if_pos rfl] at hv
      cases hv
      simp [amod, aget]
    · simp only [aget, if_neg hc] at hv
      simp only [amod, if_neg hc, aget, if_neg hc]
      exact ih hv

theorem hget_halloc_self {α : Type} (h : Heap α) (v : α) :
    hget (halloc h v).2 (halloc h v).1 = some v := by
  simp [hget, halloc, aget]

theorem hget_halloc_ne {α : Type} (h : Heap α) (v : α) (a : Nat) (hne : a ≠ h.next) :
    hget (halloc h v).2 a = hget h a := by
  simp only [hget, halloc, aget]
  rw [if_neg (fun he => hne he.symm)]

theorem hget_hmodify_ne {α : Type} (h : Heap α) (a b : Nat) (f : α → α) (hne : b ≠ a) :
    hget (hmodify h a f) b = hget h b :=
  aget_amod_ne h.entries a b f hne

theorem hget_hmodify_self {α : Type} (h : Heap α) (a : Nat) (f : α → α) (v : α)
    (hv : hget h a = some v) : hget (hmodify h a f) a = some (f v) :=
  aget_amod_self h.entries a f v hv

theorem aget_some_mem {α : Type} (l : List (Nat × α)) (a : Nat) (v : α)
    (h : aget l a = some v) : (a, v) ∈ l := by
  induction l with
  | nil => simp [aget] at h
  | cons p rest ih =>
    rcases p with ⟨b, w⟩
    simp only [aget] at h
    by_cases hb : b = a
    · subst hb
      rw [if_pos rfl] at h
      cases h
      exact List.mem_cons_self _ _
    · rw [if_neg hb] at h
      exact List.mem_cons_of_mem _ (ih h)

/-!  Helper lemmas about Document.set_content. -/

namespace Doc

/-- A content-changing call on an int-version document: the new state keeps
all updates and no exception is raised. -/
theorem set_content_changes (d : Doc) (c : String) (now : Nat) (n : Int)
    (hc : c ≠ "") (hne : c ≠ d.content) (hv : d.version = .VInt n) :
    set_content d c now =
      (⟨c, .VInt (n + 1),
        dset (dset d.metadata "updated_at" (.VTime now)) "version" (.VInt (n + 1)),
        d.history.take (d.historyIndex + 1) ++ [c],
        (d.history.take (d.historyIndex + 1) ++ [c]).length - 1⟩, none) := by
  unfold set_content
  rw [if_neg hc, if_pos hne, hv]
  rfl

/-- Calling set_content with the current content never changes the state:
the empty-content raise happens before any mutation, and the equal-content
path is an explicit no-op. -/
theorem set_content_self (d : Doc) (now : Nat) :
    (set_content d d.content now).1 = d := by
  unfold set_content
  by_cases hc : d.content = ""
  · rw [if_pos hc]
  · rw [if_neg hc, if_neg (by simp)]

/-- Calling set_content with the current, non-empty content is a fully
silent no-op. -/
theorem set_content_self_ok (d : Doc) (now : Nat) (hc : d.content ≠ "") :
    set_content d d.content now = (d, none) := by
  unfold set_content
  rw [if_neg hc, if_neg (by simp)]

/-- Run a sequence of set_content calls, each with its timestamp. -/
def runSeq (d : Doc) (cs : List (String × Nat)) : Doc :=
  cs.foldl (fun d p => (set_content d p.1 p.2).1) d

/-- The values of a sequence of set_content calls are non-empty and
pairwise-consecutively distinct, starting from the given current content. -/
def okSeq : String → List (String × Nat) → Prop
  | _, [] => True
  | cur, p :: rest => p.1 ≠ "" ∧ p.1 ≠ cur ∧ okSeq p.1 rest

instance (cur : String) (cs : List (String × Nat)) : Decidable (okSeq cur cs) := by
  induction cs generalizing cur with
  | nil => exact isTrue trivial
  | cons p rest ih =>
    simp only [okSeq]
    have := ih p.1
    infer_instance

theorem runSeq_version (cs : List (String × Nat)) (d : Doc) (n : Int)
    (hv : d.version = .VInt n) (hs : okSeq d.content cs) :
    (runSeq d cs).version = .VInt (n + cs.length) := by
  induction cs generalizing d n with
  | nil => simpa [runSeq] using hv
  | cons p rest ih =>
    rcases hs with ⟨hne, hcur, hrest⟩
    have hstep := set_content_changes d p.1 p.2 n hne hcur hv
    have h1 : runSeq d (p :: rest) = runSeq (set_content d p.1 p.2).1 rest := rfl
    rw [h1, hstep]
    refine Eq.trans (ih ⟨p.1, .VInt (n + 1),
      dset (dset d.metadata "updated_at" (.VTime p.2)) "version" (.VInt (n + 1)),
      d.history.take (d.historyIndex + 1) ++ [p.1],
      (d.history.take (d.historyIndex + 1) ++ [p.1]).length - 1⟩
      (n + 1) rfl hrest) ?_
    simp only [List.length_cons]
    congr 1
    push_cast
    ring

end Doc

/-!  Claim C1. -/

/-- A concrete document for the C1 counterexample: the state produced by
Document("t", "a", "x") at ticks 1 and 2. -/
def c1doc : Doc :=
  ⟨"x", .VInt 1,
   [("title", .VStr "t"), ("author", .VStr "a"), ("created_at", .VTime 1),
    ("updated_at", .VTime 2), ("version", .VInt 1)],
   ["x"], 0⟩

/-- C1 (counterexample): the empty string differs from the current content
"x", yet set_content raises ValueError and leaves version at 1 instead of
incrementing it to 2, so a set_content call with a string different from
the current content does not always increment version. -/
theorem claim_C1_cex :
    Doc.init (.VStr "t") (.VStr "a") "x" 1 2 = .ok c1doc ∧
    ("" : String) ≠ c1doc.content ∧
    (Doc.set_content c1doc "" 5).1.version = .VInt 1 ∧
    (Doc.set_content c1doc "" 5).1.version ≠ .VInt 2 ∧
    (Doc.set_content c1doc "" 5).2 =
      some (.valueError "Document content cannot be empty") := by
  refine ⟨rfl, by decide, rfl, by decide, rfl⟩

/-- C1 (amended): set_content with a non-empty string different from the
current content increments version by exactly 1 (and raises nothing);
set_content with a string equal to the current content leaves the whole
state, hence version and history, unchanged, silently when the content is
non-empty; over any sequence of set_content calls with pairwise-consecutive
distinct non-empty values, version strictly increases by 1 per call. -/
theorem claim_C1 :
    (∀ (d : Doc) (c : String) (now : Nat) (n : Int),
        c ≠ "" → c ≠ d.content → d.version = .VInt n →
        (Doc.set_content d c now).1.version = .VInt (n + 1) ∧
        (Doc.set_content d c now).2 = none) ∧
    (∀ (d : Doc) (now : Nat),
        (Doc.set_content d d.content now).1 = d ∧
        (d.content ≠ "" → Doc.set_content d d.content now = (d, none))) ∧
    (∀ (d : Doc) (cs : List (String × Nat)) (n : Int),
        d.version = .VInt n → Doc.okSeq d.content cs →
        (Doc.runSeq d cs).version = .VInt (n + cs.length)) := by
  refine ⟨fun d c now n hc hne hv => ?_, fun d now => ?_, fun d cs n hv hs => ?_⟩
  · rw [Doc.set_content_changes d c now n hc hne hv]
    exact ⟨rfl, rfl⟩
  · exact ⟨Doc.set_content_self d now, fun hc => Doc.set_content_self_ok d now hc⟩
  · exact Doc.runSeq_version cs d n hv hs

/-- C1 (witness): the amended theorem applied to a concrete document, a
concrete changing call, a concrete no-op call and a concrete two-step
sequence. -/
theorem claim_C1_witness :
    ((Doc.set_content ⟨"x", .VInt 1, [], ["x"], 0⟩ "y" 5).1.version = .VInt 2 ∧
     (Doc.set_content ⟨"x", .VInt 1, [], ["x"], 0⟩ "y" 5).2 = none) ∧
    (Doc.set_content ⟨"x", .VInt 1, [], ["x"], 0⟩ "x" 5 =
      (⟨"x", .VInt 1, [], ["x"], 0⟩, none)) ∧
    (Doc.runSeq ⟨"x", .VInt 1, [], ["x"], 0⟩ [("y", 5), ("x", 6)]).version = .VInt 3 := by
  refine ⟨claim_C1.1 ⟨"x", .VInt 1, [], ["x"], 0⟩ "y" 5 1 (by decide) (by decide) rfl,
    (claim_C1.2.1 ⟨"x", .VInt 1, [], ["x"], 0⟩ 5).2 (by decide),
    ?_⟩
  have h := claim_C1.2.2 ⟨"x", .VInt 1, [], ["x"], 0⟩ [("y", 5), ("x", 6)] 1 rfl
    (by decide)
  simpa using h

/-!  Claim C2. -/

/-- The state Document("t", "a", "x") reaches after set_content("y") at
tick 5 followed by undo() at tick 6: content back to "x", cursor at the
start, the snapshot "y" still ahead of the cursor. -/
def c2doc : Doc :=
  ⟨"x", .VInt 1,
   [("title", .VStr "t"), ("author", .VStr "a"), ("created_at", .VTime 1),
    ("updated_at", .VTime 6), ("version", .VInt 1)],
   ["x", "y"], 0⟩

/-- C2 (counterexample): after an undo, the set_content("x") call succeeds
(returns without raising, a no-op because "x" is the current content), yet
the next redo() is not a no-op: it moves the content to "y".  So a
successful set_content after an undo does not always discard the redo
branch. -/
theorem claim_C2_cex :
    (Doc.undo (Doc.set_content c1doc "y" 5).1 6 = (c2doc, none)) ∧
    (Doc.set_content c2doc "x" 7 = (c2doc, none)) ∧
    ((Doc.redo c2doc 8).1.content = "y" ∧ (Doc.redo c2doc 8).1 ≠ c2doc) := by
  refine ⟨rfl, rfl, rfl, by decide⟩

/-- C2 (amended): undo() with the cursor at the oldest snapshot leaves the
state (hence content and version) unchanged; redo() with the cursor at the
newest snapshot leaves the state unchanged; and after a content-changing
set_content call (one with a non-empty text different from the current
content, on an int version), the redo branch is discarded: the next redo()
is a no-op. -/
theorem claim_C2 :
    (∀ (d : Doc) (now : Nat), d.historyIndex = 0 → Doc.undo d now = (d, none)) ∧
    (∀ (d : Doc) (now : Nat), d.historyIndex + 1 ≥ d.history.length →
        Doc.redo d now = (d, none)) ∧
    (∀ (d : Doc) (c : String) (now now2 : Nat) (n : Int),
        c ≠ "" → c ≠ d.content → d.version = .VInt n →
        Doc.redo (Doc.set_content d c now).1 now2 = ((Doc.set_content d c now).1, none)) := by
  refine ⟨fun d now h0 => ?_, fun d now hend => ?_, fun d c now now2 n hc hne hv => ?_⟩
  · unfold Doc.undo
    rw [if_neg (by omega)]
  · unfold Doc.redo
    rw [if_neg (by omega)]
  · rw [Doc.set_content_changes d c now n hc hne hv]
    unfold Doc.redo
    rw [if_neg ?_]
    have hlen : (d.history.take (d.historyIndex + 1) ++ [c]).length ≥ 1 := by
      simp
    simp only []
    omega

/-- C2 (witness): the amended theorem applied to concrete states: an undo
at the start, a redo at the end, and a redo directly after a
content-changing set_content. -/
theorem claim_C2_witness :
    Doc.undo ⟨"x", .VInt 1, [], ["x", "y"], 0⟩ 9 = (⟨"x", .VInt 1, [], ["x", "y"], 0⟩, none) ∧
    Doc.redo ⟨"y", .VInt 2, [], ["x", "y"], 1⟩ 9 = (⟨"y", .VInt 2, [], ["x", "y"], 1⟩, none) ∧
    Doc.redo (Doc.set_content ⟨"x", .VInt 1, [], ["x", "y"], 0⟩ "z" 5).1 6 =
      ((Doc.set_content ⟨"x", .VInt 1, [], ["x", "y"], 0⟩ "z" 5).1, none) := by
  refine ⟨claim_C2.1 ⟨"x", .VInt 1, [], ["x", "y"], 0⟩ 9 rfl,
    claim_C2.2.1 ⟨"y", .VInt 2, [], ["x", "y"], 1⟩ 9 (by decide),
    claim_C2.2.2 ⟨"x", .VInt 1, [], ["x", "y"], 0⟩ "z" 5 6 1 (by decide) (by decide) rfl⟩

/-!  Claim C10. -/

/-- Documents reachable from the constructor or from_dict by any sequence
of set_content, update_metadata, undo and redo calls (including calls that
raise: the object keeps the mutations performed before the raise). -/
inductive DocReach : Doc → Prop
  | init (title author : PyVal) (content : String) (t1 t2 : Nat) (d : Doc) :
      Doc.init title author content t1 t2 = .ok d → DocReach d
  | fromDict (data : DocData) (t1 t2 : Nat) (d : Doc) :
      Doc.from_dict data t1 t2 = .ok d → DocReach d
  | set (d : Doc) (c : String) (now : Nat) :
      DocReach d → DocReach (Doc.set_content d c now).1
  | upd (d : Doc) (m : Dct PyVal) (now : Nat) :
      DocReach d → DocReach (Doc.update_metadata d m now).1
  | undo (d : Doc) (now : Nat) : DocReach d → DocReach (Doc.undo d now).1
  | redo (d : Doc) (now : Nat) : DocReach d → DocReach (Doc.redo d now).1

/-- The from_dict input for the C10 counterexample: a stored document whose
version entry is the string "5". -/
def c10data : DocData :=
  ⟨some "", some [("title", .VStr "t"), ("author", .VStr "a"), ("version", .VStr "5")]⟩

/-- The document from_dict builds out of c10data at ticks 1 and 2. -/
def c10doc0 : Doc :=
  ⟨"", .VStr "5",
   [("title", .VStr "t"), ("author", .VStr "a"), ("created_at", .VTime 1),
    ("updated_at", .VTime 2), ("version", .VStr "5")],
   [""], 0⟩

/-- The state after update_metadata({"version": 7}) on c10doc0: the merge
into the metadata dict happened, then version += 1 raised TypeError, so
the two version counters diverge. -/
def c10doc : Doc :=
  ⟨"", .VStr "5",
   [("title", .VStr "t"), ("author", .VStr "a"), ("created_at", .VTime 1),
    ("updated_at", .VTime 2), ("version", .VInt 7)],
   [""], 0⟩

/-- C10 (counterexample): a document reachable via from_dict (version entry
"5") followed by update_metadata({"version": 7}) has metadata version 7 but
version attribute "5": the two counters diverge, because the metadata merge
precedes the version increment that raises TypeError on the non-int
version. -/
theorem claim_C10_cex :
    DocReach c10doc ∧
    dget c10doc.metadata "version" = some (.VInt 7) ∧
    c10doc.version = .VStr "5" ∧
    dget c10doc.metadata "version" ≠ some c10doc.version := by
  refine ⟨?_, rfl, rfl, by decide⟩
  have h0 : DocReach c10doc0 := DocReach.fromDict c10data 1 2 c10doc0 rfl
  have h1 : (Doc.update_metadata c10doc0 [("version", .VInt 7)] 3).1 = c10doc := rfl
  exact h1 ▸ DocReach.upd c10doc0 [("version", .VInt 7)] 3 h0

/-- The timestamp-refresh step never touches the version entry when its
key differs from version. -/
theorem refreshTime_version (md : Dct PyVal) (key : String) (src : Dct PyVal)
    (md1 : Dct PyVal) (hkey : key ≠ "version")
    (h : Doc.refreshTime md key src = .ok md1) :
    dget md1 "version" = dget md "version" := by
  unfold Doc.refreshTime at h
  split at h
  · cases h; rfl
  · split at h
    · exact absurd h (by simp)
    · cases h
      exact dget_dset_ne _ _ _ _ hkey

theorem from_dict_version_sync (data : DocData) (t1 t2 : Nat) (d : Doc)
    (h : Doc.from_dict data t1 t2 = .ok d) :
    dget d.metadata "version" = some d.version := by
  unfold Doc.from_dict at h
  split at h
  next => exact absurd h (by simp)
  next md hmd =>
  split at h
  next => exact absurd h (by simp)
  next title htitle =>
  split at h
  next => exact absurd h (by simp)
  next author hauthor =>
  split at h
  next e hinit => exact absurd h (by simp)
  next doc hinit =>
  split at h
  next e hmd1 => exact absurd h (by simp)
  next md1 hmd1 =>
  split at h
  next e hmd2 => exact absurd h (by simp)
  next md2 hmd2 =>
  cases h
  have h2 := refreshTime_version md1 "updated_at" md md2 (by decide) hmd2
  have h1 := refreshTime_version _ "created_at" md md1 (by decide) hmd1
  show dget md2 "version" = some ((dget md "version").getD (.VInt 1))
  rw [h2, h1, dget_dset_self]

/-- C10 (amended): for every reachable document whose version attribute is
an int — which covers every document built by the constructor or by
from_dict on data with an int (or absent) version entry, since no later
call ever turns a non-int version into an int — the metadata version entry
equals the version attribute. -/
theorem claim_C10 (d : Doc) (hreach : DocReach d) (n : Int)
    (hv : d.version = .VInt n) :
    dget d.metadata "version" = some (.VInt n) := by
  induction hreach generalizing n with
  | init title author content t1 t2 d0 h =>
    unfold Doc.init at h
    by_cases ht : pyFalsy title
    · rw [if_pos ht] at h; exact absurd h (by simp)
    by_cases ha : pyFalsy author
    · rw [if_neg ht, if_pos ha] at h; exact absurd h (by simp)
    rw [if_neg ht, if_neg ha] at h
    cases h
    simp only [] at hv
    cases hv
    simp [dget]
  | fromDict data t1 t2 d0 h =>
    have := from_dict_version_sync data t1 t2 d0 h
    rw [hv] at this
    exact this
  | set d0 c now _ ih =>
    rcases hsc : Doc.set_content d0 c now with ⟨d1, err⟩
    rw [hsc] at hv
    replace hv : d1.version = .VInt n := hv
    show dget d1.metadata "version" = some (.VInt n)
    unfold Doc.set_content at hsc
    split at hsc
    · cases hsc; exact ih n hv
    · split at hsc
      · split at hsc
        next e hadd =>
          cases hsc
          replace hv : d0.version = .VInt n := hv
          rw [hv] at hadd
          exact absurd hadd (by simp [Doc.pyAddOne])
        next v hadd =>
          cases hsc
          replace hv : v = .VInt n := hv
          exact hv ▸ dget_dset_self (dset d0.metadata "updated_at" (.VTime now)) "version" v
      · cases hsc; exact ih n hv
  | upd d0 m now _ ih =>
    rcases hsc : Doc.update_metadata d0 m now with ⟨d1, err⟩
    rw [hsc] at hv
    replace hv : d1.version = .VInt n := hv
    show dget d1.metadata "version" = some (.VInt n)
    unfold Doc.update_metadata at hsc
    split at hsc
    · cases hsc; exact ih n hv
    · split at hsc
      · cases hsc; exact ih n hv
      · split at hsc
        · split at hsc
          next e hadd =>
            cases hsc
            replace hv : d0.version = .VInt n := hv
            rw [hv] at hadd
            exact absurd hadd (by simp [Doc.pyAddOne])
          next v hadd =>
            cases hsc
            replace hv : v = .VInt n := hv
            exact hv ▸
              dget_dset_self (dset (dupd d0.metadata m) "updated_at" (.VTime now)) "version" v
        next hmerge =>
          push_neg at hmerge
          cases hsc
          replace hv : d0.version = .VInt n := hv
          show dget (dupd d0.metadata m) "version" = some (.VInt n)
          rw [hmerge]
          exact ih n hv
  | undo d0 now _ ih =>
    rcases hsc : Doc.undo d0 now with ⟨d1, err⟩
    rw [hsc] at hv
    replace hv : d1.version = .VInt n := hv
    show dget d1.metadata "version" = some (.VInt n)
    unfold Doc.undo at hsc
    split at hsc
    · split at hsc
      next e hsub =>
        cases hsc
        replace hv : d0.version = .VInt n := hv
        rw [hv] at hsub
        exact absurd hsub (by simp [Doc.pySubOne])
      next v hsub =>
        cases hsc
        replace hv : v = .VInt n := hv
        exact hv ▸ dget_dset_self (dset d0.metadata "updated_at" (.VTime now)) "version" v
    · cases hsc; exact ih n hv
  | redo d0 now _ ih =>
    rcases hsc : Doc.redo d0 now with ⟨d1, err⟩
    rw [hsc] at hv
    replace hv : d1.version = .VInt n := hv
    show dget d1.metadata "version" = some (.VInt n)
    unfold Doc.redo at hsc
    split at hsc
    · split at hsc
      next e hadd =>
        cases hsc
        replace hv : d0.version = .VInt n := hv
        rw [hv] at hadd
        exact absurd hadd (by simp [Doc.pyAddOne])
      next v hadd =>
        cases hsc
        replace hv : v = .VInt n := hv
        exact hv ▸ dget_dset_self (dset d0.metadata "updated_at" (.VTime now)) "version" v
    · cases hsc; exact ih n hv

/-!  Claim C3. -/

/-- A template that validates has a non-empty name and category. -/
theorem validate_ok_nonempty (t : Template) (h : Template.validate t = .ok true) :
    t.name ≠ "" ∧ t.category ≠ "" := by
  unfold Template.validate at h
  constructor
  · intro he
    rw [if_pos he] at h
    exact absurd h (by simp)
  · intro he
    by_cases hn : t.name = ""
    · rw [if_pos hn] at h
      exact absurd h (by simp)
    · rw [if_neg hn, if_pos he] at h
      exact absurd h (by simp)

/-- C3: for every Template satisfying the validation invariants, from_dict
of to_dict succeeds and reproduces the name, category, metadata, styles and
layouts — in fact the whole template. -/
theorem claim_C3 (T : Template) (hvalid : Template.validate T = .ok true) :
    (Template.to_dict T).bind Template.from_dict = .ok T := by
  obtain ⟨hn, hc⟩ := validate_ok_nonempty T hvalid
  have h1 : Template.to_dict T =
      .ok ⟨some T.name, some T.category, some T.metadata, some T.styles, some T.layouts⟩ := by
    unfold Template.to_dict
    rw [hvalid]
  rw [h1]
  show Template.from_dict
      ⟨some T.name, some T.category, some T.metadata, some T.styles, some T.layouts⟩ = .ok T
  unfold Template.from_dict Template.init
  simp only []
  rw [if_neg hn, if_neg hc]
  simp only [Option.getD_some]
  split
  next e hval =>
    replace hval : Template.validate T = .error e := hval
    rw [hvalid] at hval
    cases hval
  next u hval =>
    rfl

/-- C3 (witness): the theorem applied to the default template
Template("Guide", "general"), which validates. -/
theorem claim_C3_witness :
    (Template.to_dict ⟨"Guide", "general",
      [("description", .MStr ""), ("tags", .MList []), ("format", .MStr "markdown")],
      [], []⟩).bind Template.from_dict =
    .ok ⟨"Guide", "general",
      [("description", .MStr ""), ("tags", .MList []), ("format", .MStr "markdown")],
      [], []⟩ :=
  claim_C3 _ rfl

/-!  Claim C4. -/

/-- Lookup of one style name inside a styles mapping: category first, then
style name. -/
def styleLookup (s : Styles) (cat nm : String) : Option Props :=
  (dget s cat).bind (fun sc => dget sc nm)

/-- Category lookup after merge_styles: categories of the source are the
updated union, other categories come from the destination untouched. -/
theorem dget_merge_styles (src : Styles) (dst : Styles) (cat : String)
    (hsrc : DKeysOk src) :
    dget (Template.merge_styles dst src) cat =
      match dget src cat with
      | some sc => some (dupd ((dget dst cat).getD []) sc)
      | none => dget dst cat := by
  induction src generalizing dst with
  | nil => simp [Template.merge_styles, dget]
  | cons p rest ih =>
    unfold DKeysOk at hsrc
    simp only [List.map_cons, List.nodup_cons] at hsrc
    have step : Template.merge_styles dst (p :: rest) =
        Template.merge_styles (dset dst p.1 (dupd ((dget dst p.1).getD []) p.2)) rest := rfl
    rw [step, ih _ hsrc.2]
    rcases p with ⟨c0, sc0⟩
    simp only [dget_cons]
    by_cases hk : c0 = cat
    · subst hk
      rw [dget_eq_none_of_not_mem_keys rest c0 hsrc.1]
      simp [dget_dset_self]
    · simp only [if_neg hk]
      cases hrest : dget rest cat with
      | some v => simp [dget_dset_ne _ _ _ _ hk]
      | none => simp [dget_dset_ne _ _ _ _ hk]

/-- C4: after A.merge(B), a style name present in both A and B carries B's
value (B wins on collision), and a style name present only in A keeps its
original value; B's styles dict has duplicate-free keys at both levels, as
every Python dict does. -/
theorem claim_C4 (A B : Template) (cat nm : String)
    (hB : DKeysOk B.styles) (hBin : ∀ p ∈ B.styles, DKeysOk p.2) :
    (∀ vA vB : Props,
        styleLookup A.styles cat nm = some vA →
        styleLookup B.styles cat nm = some vB →
        styleLookup (Template.merge A B).styles cat nm = some vB) ∧
    (∀ vA : Props,
        styleLookup A.styles cat nm = some vA →
        styleLookup B.styles cat nm = none →
        styleLookup (Template.merge A B).styles cat nm = some vA) := by
  have hmerged : (Template.merge A B).styles = Template.merge_styles A.styles B.styles := rfl
  constructor
  · intro vA vB hA hBv
    unfold styleLookup at hA hBv ⊢
    rw [hmerged, dget_merge_styles B.styles A.styles cat hB]
    rcases hBcat : dget B.styles cat with _ | scB
    · rw [hBcat] at hBv
      exact absurd hBv (by simp)
    · rw [hBcat] at hBv
      simp only [Option.some_bind] at hBv
      have hscB : DKeysOk scB := hBin (cat, scB) (dget_mem _ _ _ hBcat)
      show dget (dupd ((dget A.styles cat).getD []) scB) nm = some vB
      rw [dget_dupd _ scB nm hscB, hBv]
  · intro vA hA hBv
    unfold styleLookup at hA hBv ⊢
    rw [hmerged, dget_merge_styles B.styles A.styles cat hB]
    rcases hAcat : dget A.styles cat with _ | scA
    · rw [hAcat] at hA
      exact absurd hA (by simp)
    rw [hAcat] at hA
    simp only [Option.some_bind] at hA
    rcases hBcat : dget B.styles cat with _ | scB
    · show dget scA nm = some vA
      exact hA
    · rw [hBcat] at hBv
      simp only [Option.some_bind] at hBv
      have hscB : DKeysOk scB := hBin (cat, scB) (dget_mem _ _ _ hBcat)
      show dget (dupd scA scB) nm = some vA
      rw [dget_dupd scA scB nm hscB, hBv]
      exact hA

/-- A concrete template for the C4 witness, with one style name shared with
c4B and one of its own. -/
def c4A : Template :=
  ⟨"A", "general", [("format", .MStr "markdown")],
   [("fonts", [("x", [("a", "1")]), ("only", [("o", "1")])])], []⟩

/-- The concrete merge source for the C4 witness. -/
def c4B : Template :=
  ⟨"B", "general", [("format", .MStr "markdown")],
   [("fonts", [("x", [("a", "2")])])], []⟩

/-- C4 (witness): the theorem applied to the concrete pair c4A, c4B: the
shared name fonts/x takes B's value, the name fonts/only keeps A's. -/
theorem claim_C4_witness :
    styleLookup (Template.merge c4A c4B).styles "fonts" "x" = some [("a", "2")] ∧
    styleLookup (Template.merge c4A c4B).styles "fonts" "only" = some [("o", "1")] :=
  ⟨(claim_C4 c4A c4B "fonts" "x" (by decide) (by decide)).1
      [("a", "1")] [("a", "2")] rfl rfl,
   (claim_C4 c4A c4B "fonts" "only" (by decide) (by decide)).2
      [("o", "1")] rfl rfl⟩

/-!  Claim C6. -/

/-- C6: save_template returns false and leaves the template directory
untouched when the template category is not among the manager categories
returned by get_categories. -/
theorem claim_C6 (tm : TmplMgr) (fs : TmplMgr.TmplFs) (t : Template)
    (h : t.category ∉ TmplMgr.get_categories tm) :
    TmplMgr.save_template tm fs t = (.ok false, fs) := by
  have h2 : t.category ∉ tm.categories := h
  unfold TmplMgr.save_template
  by_cases h1 : t.name = "" ∨ t.category = ""
  · rw [if_pos h1]
  · rw [if_neg h1, if_pos h2]

/-- C6 (witness): the theorem applied to a fresh manager (categories
{general}) and a template in the unregistered category fiction. -/
theorem claim_C6_witness :
    TmplMgr.save_template (TmplMgr.init "tpl") ⟨[("tpl/old.json", none)], []⟩
      ⟨"Guide", "fiction", [("format", .MStr "markdown")], [], []⟩ =
    (.ok false, ⟨[("tpl/old.json", none)], []⟩) :=
  claim_C6 (TmplMgr.init "tpl") ⟨[("tpl/old.json", none)], []⟩
    ⟨"Guide", "fiction", [("format", .MStr "markdown")], [], []⟩ (by decide)

/-!  Claim C7. -/

/-- C7 (counterexample): on an empty storage directory, the
document-manager-level load raises a wrapped ValueError for the missing
file instead of returning an absent value. -/
theorem claim_C7_cex :
    DocumentManager.load_document "docs" [] "x" 1 2 =
      .error (.valueError "Failed to load document: Document x does not exist") := rfl

/-- C7 (amended): Document.load returns None, raising nothing, when the
file is missing, when its text fails JSON decoding, when its JSON is not
an object, and when from_dict rejects the object with ValueError; the
document-manager-level load_document instead raises ValueError for a
missing or unloadable file, as its docstring documents, and tracks no
current document. -/
theorem claim_C7 :
    (∀ (fs : FileSys) (path : String) (t1 t2 : Nat),
        dget fs path = none → Doc.load fs path t1 t2 = .ok none) ∧
    (∀ (fs : FileSys) (path : String) (t1 t2 : Nat),
        dget fs path = some .malformed → Doc.load fs path t1 t2 = .ok none) ∧
    (∀ (fs : FileSys) (path : String) (t1 t2 : Nat),
        dget fs path = some .nonObject → Doc.load fs path t1 t2 = .ok none) ∧
    (∀ (fs : FileSys) (path : String) (t1 t2 : Nat) (dd : DocData) (m : String),
        dget fs path = some (.objectData dd) →
        Doc.from_dict dd t1 t2 = .error (.valueError m) →
        Doc.load fs path t1 t2 = .ok none) ∧
    (∀ (dir : String) (fs : FileSys) (docId : String) (t1 t2 : Nat),
        dget fs (dir ++ "/" ++ docId ++ ".json") = none →
        DocumentManager.load_document dir fs docId t1 t2 =
          .error (.valueError
            ("Failed to load document: Document " ++ docId ++ " does not exist"))) ∧
    (∀ (dir : String) (fs : FileSys) (docId : String) (t1 t2 : Nat) (c : FileContent),
        dget fs (dir ++ "/" ++ docId ++ ".json") = some c →
        Doc.load fs (dir ++ "/" ++ docId ++ ".json") t1 t2 = .ok none →
        DocumentManager.load_document dir fs docId t1 t2 =
          .error (.valueError
            ("Failed to load document: Failed to load document " ++ docId))) := by
  refine ⟨fun fs path t1 t2 h => ?_, fun fs path t1 t2 h => ?_,
    fun fs path t1 t2 h => ?_, fun fs path t1 t2 dd m h h2 => ?_,
    fun dir fs docId t1 t2 h => ?_, fun dir fs docId t1 t2 c h h2 => ?_⟩
  · unfold Doc.load; rw [h]
  · unfold Doc.load; rw [h]
  · unfold Doc.load; rw [h]
  · unfold Doc.load; rw [h]; simp only []; rw [h2]
  · unfold DocumentManager.load_document; rw [if_pos h]
  · unfold DocumentManager.load_document
    rw [if_neg (by simp [h]), h2]

/-- C7 (witness): the amended theorem applied to a concrete directory with
one malformed file, one non-object file, one object a from_dict ValueError
rejects, a missing path, and an existing malformed file behind the
manager. -/
theorem claim_C7_witness :
    Doc.load [("a.json", .malformed)] "missing.json" 1 2 = .ok none ∧
    Doc.load [("a.json", .malformed)] "a.json" 1 2 = .ok none ∧
    Doc.load [("b.json", .nonObject)] "b.json" 1 2 = .ok none ∧
    Doc.load [("c.json", .objectData ⟨none, none⟩)] "c.json" 1 2 = .ok none ∧
    DocumentManager.load_document "docs" [("a.json", .malformed)] "x" 1 2 =
      .error (.valueError "Failed to load document: Document x does not exist") ∧
    DocumentManager.load_document "docs" [("docs/x.json", .malformed)] "x" 1 2 =
      .error (.valueError "Failed to load document: Failed to load document x") :=
  ⟨claim_C7.1 _ "missing.json" 1 2 rfl,
   claim_C7.2.1 _ "a.json" 1 2 rfl,
   claim_C7.2.2.1 _ "b.json" 1 2 rfl,
   claim_C7.2.2.2.1 _ "c.json" 1 2 ⟨none, none⟩
     "Document data must include metadata" rfl rfl,
   claim_C7.2.2.2.2.1 "docs" _ "x" 1 2 rfl,
   claim_C7.2.2.2.2.2 "docs" _ "x" 1 2 .malformed rfl rfl⟩

/-!  Claim C8. -/

/-- An app editor with no current document, for the C8 counterexample. -/
def c8ed : AppEditor := ⟨⟨"storage", []⟩, none⟩

/-- An empty app storage directory, for the C8 counterexample. -/
def c8fs : AppFs := ⟨[], []⟩

/-- C8 (counterexample): with no current document, AppEditor.save_document
returns the boolean false and touches nothing; it raises no InvalidState
failure — its embedding has no error channel at all because the source
method never raises. -/
theorem claim_C8_cex :
    AppEditor.save_document c8ed c8fs = ((c8ed, c8fs), false) := rfl

/-- C8 (amended): with no current document, save_document returns false
(and changes nothing) rather than raising; with a current document it
returns a boolean: false when the write raises IOError (the directory is
then left untouched), true when the write succeeds. -/
theorem claim_C8 :
    (∀ (ed : AppEditor) (fs : AppFs), ed.currentDocument = none →
        AppEditor.save_document ed fs = ((ed, fs), false)) ∧
    (∀ (ed : AppEditor) (fs : AppFs) (d : EDoc), ed.currentDocument = some d →
        (ed.dm.storageDir ++ "/" ++ d.title ++ ".json") ∈ fs.failing →
        (AppEditor.save_document ed fs).2 = false ∧
        (AppEditor.save_document ed fs).1.2 = fs) ∧
    (∀ (ed : AppEditor) (fs : AppFs) (d : EDoc), ed.currentDocument = some d →
        (ed.dm.storageDir ++ "/" ++ d.title ++ ".json") ∉ fs.failing →
        (AppEditor.save_document ed fs).2 = true) := by
  refine ⟨fun ed fs h => ?_, fun ed fs d h hfail => ?_, fun ed fs d h hok => ?_⟩
  · unfold AppEditor.save_document
    rw [h]
  · unfold AppEditor.save_document
    rw [h]
    unfold AppDM.save_document
    simp only []
    rw [if_pos hfail]
    exact ⟨rfl, rfl⟩
  · unfold AppEditor.save_document
    rw [h]
    unfold AppDM.save_document
    simp only []
    rw [if_neg hok]

/-- C8 (witness): the amended theorem applied to concrete editors: one
without a current document, one whose write path fails, one whose write
succeeds. -/
theorem claim_C8_witness :
    AppEditor.save_document ⟨⟨"s", []⟩, none⟩ ⟨[], []⟩ = ((⟨⟨"s", []⟩, none⟩, ⟨[], []⟩), false) ∧
    (AppEditor.save_document ⟨⟨"s", []⟩, some ⟨"t", "c"⟩⟩ ⟨[], ["s/t.json"]⟩).2 = false ∧
    (AppEditor.save_document ⟨⟨"s", []⟩, some ⟨"t", "c"⟩⟩ ⟨[], []⟩).2 = true :=
  ⟨claim_C8.1 ⟨⟨"s", []⟩, none⟩ ⟨[], []⟩ rfl,
   (claim_C8.2.1 ⟨⟨"s", []⟩, some ⟨"t", "c"⟩⟩ ⟨[], ["s/t.json"]⟩ ⟨"t", "c"⟩ rfl (by decide)).1,
   claim_C8.2.2 ⟨⟨"s", []⟩, some ⟨"t", "c"⟩⟩ ⟨[], []⟩ ⟨"t", "c"⟩ rfl (by decide)⟩

/-!  Claim C9. -/

/-- A concrete styles object for the C9 counterexample. -/
def c9styles : Styles := [("borders", [("classic", [("border", "1px")])])]

/-- A one-object heap holding c9styles at address 0. -/
def c9heap : Heap Styles := ⟨[(0, c9styles)], 1⟩

/-- A template whose styles attribute is the object at address 0. -/
def c9tmpl : TmplObj := ⟨0⟩

/-- C9 (counterexample): mutating the dict returned by
Template.__getitem__("styles") changes the owning template internal
styles, because the accessor returns the live internal reference, not a
defensive copy. -/
theorem claim_C9_cex :
    hget (hmodify c9heap (TmplObj.getitem_styles c9tmpl)
        (fun s => dset s "colors" [("main", [("color", "red")])]))
      c9tmpl.stylesRef ≠ hget c9heap c9tmpl.stylesRef := by
  decide

/-- C9 (amended): Document.get_metadata returns a defensive copy — a fresh
dict whose mutation leaves the document metadata untouched — but
Template.__getitem__ (styles) and core-editor Document.get_revision_history
return the live internal references, so mutating the returned value does
change the owning object. -/
theorem claim_C9 :
    (∀ (d : DocObj) (h : Heap (Dct PyVal)) (m : Dct PyVal) (f : Dct PyVal → Dct PyVal),
        Heap.WF h → hget h d.metadataRef = some m →
        (DocObj.get_metadata d h).1 ≠ d.metadataRef ∧
        hget (hmodify (DocObj.get_metadata d h).2 (DocObj.get_metadata d h).1 f)
          d.metadataRef = some m) ∧
    (∀ (t : TmplObj) (h : Heap Styles) (s : Styles) (f : Styles → Styles),
        hget h t.stylesRef = some s →
        hget (hmodify h (TmplObj.getitem_styles t) f) t.stylesRef = some (f s)) ∧
    (∀ (d : EdDocObj) (h : Heap (List (Dct PyVal))) (l : List (Dct PyVal))
        (f : List (Dct PyVal) → List (Dct PyVal)),
        hget h d.revisionHistoryRef = some l →
        hget (hmodify h (EdDocObj.get_revision_history d) f)
          d.revisionHistoryRef = some (f l)) := by
  refine ⟨fun d h m f hwf hm => ?_, fun t h s f hs => ?_, fun d h l f hl => ?_⟩
  · have hmem : (d.metadataRef, m) ∈ h.entries := aget_some_mem h.entries _ m hm
    have hlt : d.metadataRef < h.next := hwf _ hmem
    have hne : d.metadataRef ≠ h.next := Nat.ne_of_lt hlt
    constructor
    · exact fun he => hne he.symm
    · show hget (hmodify (halloc h ((hget h d.metadataRef).getD [])).2 h.next f)
        d.metadataRef = some m
      rw [hget_hmodify_ne _ _ _ _ hne, hget_halloc_ne h _ _ hne]
      exact hm
  · exact hget_hmodify_self h t.stylesRef f s hs
  · exact hget_hmodify_self h d.revisionHistoryRef f l hl

/-- C9 (witness): the amended theorem applied to concrete one-object heaps
for each of the three accessors. -/
theorem claim_C9_witness :
    ((DocObj.get_metadata ⟨0⟩ ⟨[(0, [("title", .VStr "t")])], 1⟩).1 ≠ 0 ∧
      hget (hmodify (DocObj.get_metadata ⟨0⟩ ⟨[(0, [("title", .VStr "t")])], 1⟩).2
          (DocObj.get_metadata ⟨0⟩ ⟨[(0, [("title", .VStr "t")])], 1⟩).1
          (fun m => dset m "title" (.VStr "u")))
        0 = some [("title", .VStr "t")]) ∧
    hget (hmodify (⟨[(0, c9styles)], 1⟩ : Heap Styles) (TmplObj.getitem_styles ⟨0⟩)
        (fun s => dset s "colors" [])) 0 = some (dset c9styles "colors" []) ∧
    hget (hmodify (⟨[(0, [])], 1⟩ : Heap (List (Dct PyVal)))
        (EdDocObj.get_revision_history ⟨0⟩) (fun l => l ++ [[("content", .VStr "x")]]))
      0 = some [[("content", .VStr "x")]] :=
  ⟨claim_C9.1 ⟨0⟩ ⟨[(0, [("title", .VStr "t")])], 1⟩ [("title", .VStr "t")]
      (fun m => dset m "title" (.VStr "u")) (by decide) rfl,
   claim_C9.2.1 ⟨0⟩ ⟨[(0, c9styles)], 1⟩ c9styles (fun s => dset s "colors" []) rfl,
   claim_C9.2.2 ⟨0⟩ ⟨[(0, [])], 1⟩ [] (fun l => l ++ [[("content", .VStr "x")]]) rfl⟩

/-- C10 (witness): the amended theorem applied to a concrete
constructor-built document. -/
theorem claim_C10_witness :
    dget (⟨"x", .VInt 1,
      [("title", .VStr "t"), ("author", .VStr "a"), ("created_at", .VTime 1),
       ("updated_at", .VTime 2), ("version", .VInt 1)],
      ["x"], 0⟩ : Doc).metadata "version" = some (.VInt 1) :=
  claim_C10 _ (DocReach.init (.VStr "t") (.VStr "a") "x" 1 2 _ rfl) 1 rfl

/-!  Embedding of src/book_editor/core/template_manager.py
(TemplateManager._sanitize_filename), over List Char.

Python specifics carried over: str.isspace, str.strip and the regex class
\s agree on the whitespace characters listed in isPySpace; the regex
classes of the two re.sub/re.split calls are isInvalid and isSep; the
lookahead (?!json$) means: keep a dot exactly when the following four
characters are json and end the string ($ cannot match before a trailing
newline here because every \n was already replaced by an underscore);
re.split on a character class with + yields the maximal runs of
non-class characters plus empty strings that the comprehension filter
drops, so a per-character split followed by the same filter is the same
function; str.upper is restricted to ASCII case mapping, which decides
membership in the all-ASCII reserved-name set exactly. -/

/-- The whitespace characters of Python str.isspace / str.strip / re \s
(code points). -/
def isPySpace (c : Char) : Bool :=
  decide (c.toNat = 32 ∨ (9 ≤ c.toNat ∧ c.toNat ≤ 13) ∨ (28 ≤ c.toNat ∧ c.toNat ≤ 31) ∨
    c.toNat = 133 ∨ c.toNat = 160 ∨ c.toNat = 5760 ∨ (8192 ≤ c.toNat ∧ c.toNat ≤ 8202) ∨
    c.toNat = 8232 ∨ c.toNat = 8233 ∨ c.toNat = 8239 ∨ c.toNat = 8287 ∨ c.toNat = 12288)

/-- The class of the first re.sub: control characters 0-31, DEL 127, and
the characters / \ : * ? quote < > | (code points 47 92 58 42 63 34 60 62
124). -/
def isInvalid (c : Char) : Bool :=
  decide (c.toNat ≤ 31 ∨ c.toNat = 127 ∨ c.toNat = 47 ∨ c.toNat = 92 ∨ c.toNat = 58 ∨
    c.toNat = 42 ∨ c.toNat = 63 ∨ c.toNat = 34 ∨ c.toNat = 60 ∨ c.toNat = 62 ∨
    c.toNat = 124)

/-- The class of the re.split call: / \ : * and whitespace. -/
def isSep (c : Char) : Bool :=
  decide (c.toNat = 47 ∨ c.toNat = 92 ∨ c.toNat = 58 ∨ c.toNat = 42) || isPySpace c

/-- Dot or underscore, the class of the final strip. -/
def isDotU (c : Char) : Bool :=
  decide (c = '.' ∨ c = '_')

/-- A dot, the class of str.strip in the dots-only check. -/
def isDot (c : Char) : Bool :=
  decide (c = '.')

/-- Remove the longest run of p-characters from the end of a list. -/
def dropEnd (p : Char → Bool) (l : List Char) : List Char :=
  (l.reverse.dropWhile p).reverse

/-- Python str.strip with the character class p: remove p-runs from both
ends. -/
def stripP (p : Char → Bool) (l : List Char) : List Char :=
  dropEnd p (l.dropWhile p)

/-- Split at every p-character (one part boundary per character; the
caller filters out the empty parts, which makes this the same function as
splitting on maximal p-runs). -/
def splitP (p : Char → Bool) : List Char → List (List Char)
  | [] => [[]]
  | c :: cs =>
      match splitP p cs with
      | [] => [[c]]
      | h :: t => if p c then [] :: h :: t else (c :: h) :: t

/-- Python underscore.join. -/
def joinU : List (List Char) → List Char
  | [] => []
  | [x] => x
  | x :: xs => x ++ '_' :: joinU xs

/-- The whole split-strip-filter-join statement: join with underscores the
stripped non-empty parts. -/
def stepSplit (l : List Char) : List Char :=
  joinU (((splitP isSep l).map (stripP isPySpace)).filter (fun x => x ≠ []))

/-- re.sub of a dot not followed by json at the end of the string with an
underscore: keep a dot exactly when the rest of the string is json. -/
def dotSub : List Char → List Char
  | [] => []
  | c :: rest =>
      if c = '.' then
        if rest = ['j', 's', 'o', 'n'] then c :: rest else '_' :: dotSub rest
      else c :: dotSub rest

/-- re.sub of an underscore run with a single underscore. -/
def collapseU : List Char → List Char
  | [] => []
  | [c] => [c]
  | a :: b :: rest =>
      if a = '_' ∧ b = '_' then collapseU (b :: rest)
      else a :: collapseU (b :: rest)

/-- The one-char replacement of the first re.sub. -/
def badRepl (c : Char) : Char :=
  if isInvalid c then '_' else c

/-- The RESERVED_NAMES set of template_manager.py. -/
def reservedNames : List (List Char) :=
  ["CON", "PRN", "AUX", "NUL",
   "COM1", "COM2", "COM3", "COM4", "COM5", "COM6", "COM7", "COM8", "COM9",
   "LPT1", "LPT2", "LPT3", "LPT4", "LPT5", "LPT6", "LPT7", "LPT8", "LPT9"].map
    String.toList

/-- Python str.upper on one character, restricted to the ASCII case map,
which is exact for deciding membership in the all-ASCII reserved set. -/
def pyUpperChar (c : Char) : Char :=
  if 97 ≤ c.toNat ∧ c.toNat ≤ 122 then Char.ofNat (c.toNat - 32) else c

/-- The sanitized.upper() in RESERVED_NAMES test. -/
def isReserved (l : List Char) : Bool :=
  decide (l.map pyUpperChar ∈ reservedNames)

/-- The append-an-underscore step for reserved names. -/
def reservedStep (l : List Char) : List Char :=
  if isReserved l then l ++ ['_'] else l

/-- str.rfind for an underscore: index of the last underscore, if any. -/
def rfindU : List Char → Option Nat
  | [] => none
  | c :: cs =>
      match rfindU cs with
      | some i => some (i + 1)
      | none => if c = '_' then some 0 else none

/-- The truncation step: over 249 characters (255 minus ".json" minus one
for safety), cut to 249, preferring the last underscore when it sits in
the upper half, otherwise cut to 239 (an extra safety margin);
str.rfind returning -1 takes the same 239 branch. -/
def truncateName (l : List Char) : List Char :=
  if l.length > 249 then
    match rfindU (l.take 249) with
    | some i => if i > 124 then (l.take 249).take i else (l.take 249).take 239
    | none => (l.take 249).take 239
  else l

/-- The transformation chain of _sanitize_filename after its two early
checks: strip whitespace, replace invalid characters, split-join on
separators, fix dots, collapse underscores, strip dots and underscores,
guard reserved names, truncate. -/
def sanitizePipeline (name : List Char) : List Char :=
  truncateName (reservedStep (stripP isDotU (collapseU (dotSub (stepSplit
    ((stripP isPySpace name).map badRepl))))))

/-- TemplateManager._sanitize_filename: raises ValueError on an empty or
all-whitespace name or a dots-only name, runs the transformation chain,
and raises ValueError when the result is empty.  Source:
template_manager.py lines 42-98. -/
def sanitize_filename (name : List Char) : Except PyErr (List Char) :=
  if name.isEmpty || name.all isPySpace then
    .error (.valueError "Template name cannot be empty")
  else if stripP isDot name = [] then
    .error (.valueError "Invalid template name")
  else if sanitizePipeline name = [] then
    .error (.valueError "Invalid template name")
  else .ok (sanitizePipeline name)

/-!  Character-class lemmas for the sanitizer. -/

theorem space_imp_sep (c : Char) (h : isPySpace c = true) : isSep c = true := by
  unfold isSep
  rw [h]
  simp

theorem good_not_sep (c : Char) (h1 : isPySpace c = false) (h2 : isInvalid c = false) :
    isSep c = false := by
  unfold isSep
  rw [h1]
  unfold isInvalid at h2
  simp only [decide_eq_false_iff_not] at h2
  simp only [Bool.or_false, decide_eq_false_iff_not]
  omega

theorem badRepl_not_invalid (c : Char) : isInvalid (badRepl c) = false := by
  unfold badRepl
  by_cases h : isInvalid c = true
  · rw [if_pos h]
    decide
  · rw [if_neg h]
    exact Bool.not_eq_true _ ▸ h

/-!  Lemmas about dropWhile, dropEnd and stripP. -/

theorem dropWhile_head_false (p : Char → Bool) (l : List Char) (h : Char)
    (hh : (l.dropWhile p).head? = some h) : p h = false := by
  induction l with
  | nil => simp at hh
  | cons c cs ih =>
    by_cases hc : p c = true
    · rw [List.dropWhile_cons_of_pos hc] at hh
      exact ih hh
    · rw [List.dropWhile_cons_of_neg (by simpa using hc)] at hh
      cases hh
      simpa using hc

theorem dropWhile_eq_self_of_head (p : Char → Bool) (l : List Char)
    (h : ∀ c, l.head? = some c → p c = false) : l.dropWhile p = l := by
  cases l with
  | nil => rfl
  | cons c cs => exact List.dropWhile_cons_of_neg (by simpa using h c rfl)

theorem dropEnd_pref (p : Char → Bool) (l : List Char) : dropEnd p l <+: l := by
  unfold dropEnd
  have hsuffix : l.reverse.dropWhile p <:+ l.reverse := List.dropWhile_suffix p
  rcases hsuffix with ⟨t, ht⟩
  refine ⟨t.reverse, ?_⟩
  have := congrArg List.reverse ht
  simpa using this

theorem mem_dropEnd (p : Char → Bool) (l : List Char) (c : Char)
    (h : c ∈ dropEnd p l) : c ∈ l :=
  (dropEnd_pref p l).subset h

theorem mem_stripP (p : Char → Bool) (l : List Char) (c : Char)
    (h : c ∈ stripP p l) : c ∈ l :=
  (List.dropWhile_subset p) (mem_dropEnd p _ c h)

theorem dropEnd_eq_self_of_getLast (p : Char → Bool) (l : List Char)
    (h : ∀ g, l.getLast? = some g → p g = false) : dropEnd p l = l := by
  unfold dropEnd
  rw [dropWhile_eq_self_of_head p l.reverse (fun c hc => h c (by simpa using hc))]
  exact l.reverse_reverse

theorem stripP_eq_self (p : Char → Bool) (l : List Char)
    (hh : ∀ c, l.head? = some c → p c = false)
    (hg : ∀ g, l.getLast? = some g → p g = false) : stripP p l = l := by
  unfold stripP
  rw [dropWhile_eq_self_of_head p l hh]
  exact dropEnd_eq_self_of_getLast p l hg

theorem head_mem_of_head? {α : Type} (l : List α) (c : α) (h : l.head? = some c) :
    c ∈ l := by
  cases l with
  | nil => simp at h
  | cons a t =>
    cases h
    exact List.mem_cons_self _ _

theorem getLast_mem_of_getLast? {α : Type} (l : List α) (c : α)
    (h : l.getLast? = some c) : c ∈ l := by
  have := List.mem_reverse.mp (head_mem_of_head? l.reverse c (by simpa using h))
  exact this

theorem stripP_eq_self_of_all (p : Char → Bool) (l : List Char)
    (h : ∀ c ∈ l, p c = false) : stripP p l = l :=
  stripP_eq_self p l (fun c hc => h c (head_mem_of_head? l c hc))
    (fun g hg => h g (getLast_mem_of_getLast? l g hg))

theorem dropWhile_ne_nil_of_exists (p : Char → Bool) (l : List Char)
    (h : ∃ c ∈ l, p c = false) : l.dropWhile p ≠ [] := by
  induction l with
  | nil => simp at h
  | cons c cs ih =>
    by_cases hc : p c = true
    · rw [List.dropWhile_cons_of_pos hc]
      rcases h with ⟨d, hd, hpd⟩
      rcases List.mem_cons.mp hd with rfl | hd2
      · rw [hc] at hpd; cases hpd
      · exact ih ⟨d, hd2, hpd⟩
    · rw [List.dropWhile_cons_of_neg (by simpa using hc)]
      simp

theorem exists_mem_dropWhile (p : Char → Bool) (l : List Char)
    (h : ∃ c ∈ l, p c = false) : ∃ c ∈ l.dropWhile p, p c = false := by
  induction l with
  | nil => simp at h
  | cons c cs ih =>
    by_cases hc : p c = true
    · rw [List.dropWhile_cons_of_pos hc]
      rcases h with ⟨d, hd, hpd⟩
      rcases List.mem_cons.mp hd with rfl | hd2
      · rw [hc] at hpd; cases hpd
      · exact ih ⟨d, hd2, hpd⟩
    · rw [List.dropWhile_cons_of_neg (by simpa using hc)]
      exact ⟨c, List.mem_cons_self _ _, by simpa using hc⟩

theorem stripP_ne_nil_of_exists (p : Char → Bool) (l : List Char)
    (h : ∃ c ∈ l, p c = false) : stripP p l ≠ [] := by
  unfold stripP dropEnd
  intro hnil
  have h1 : ∃ c ∈ l.dropWhile p, p c = false := exists_mem_dropWhile p l h
  have h2 : ∃ c ∈ (l.dropWhile p).reverse, p c = false := by
    rcases h1 with ⟨c, hc, hpc⟩
    exact ⟨c, List.mem_reverse.mpr hc, hpc⟩
  have h3 := dropWhile_ne_nil_of_exists p (l.dropWhile p).reverse h2
  rw [List.reverse_eq_nil_iff] at hnil
  exact h3 hnil

theorem stripP_head_false (p : Char → Bool) (l : List Char) (c : Char)
    (h : (stripP p l).head? = some c) : p c = false := by
  unfold stripP at h
  have hpre := dropEnd_pref p (l.dropWhile p)
  have hne : dropEnd p (l.dropWhile p) ≠ [] := by
    intro hnil
    rw [hnil] at h
    simp at h
  have hhead : (dropEnd p (l.dropWhile p)).head? = (l.dropWhile p).head? := by
    cases hd : dropEnd p (l.dropWhile p) with
    | nil => exact absurd hd hne
    | cons a s =>
      rcases hpre with ⟨t, ht⟩
      rw [hd] at ht
      rw [← ht]
      simp
  rw [hhead] at h
  exact dropWhile_head_false p l c h

theorem stripP_getLast_false (p : Char → Bool) (l : List Char) (c : Char)
    (h : (stripP p l).getLast? = some c) : p c = false := by
  unfold stripP dropEnd at h
  rw [List.getLast?_reverse] at h
  exact dropWhile_head_false p (l.dropWhile p).reverse c h

/-!  Lemmas about splitP, joinU and stepSplit. -/

theorem splitP_ne_nil (p : Char → Bool) (l : List Char) : splitP p l ≠ [] := by
  cases l with
  | nil => simp [splitP]
  | cons c cs =>
    unfold splitP
    cases splitP p cs with
    | nil => simp
    | cons h t =>
      simp only []
      by_cases hc : p c = true
      · rw [if_pos hc]; simp
      · rw [if_neg hc]; simp

theorem splitP_single (p : Char → Bool) (l : List Char)
    (h : ∀ c ∈ l, p c = false) : splitP p l = [l] := by
  induction l with
  | nil => rfl
  | cons c cs ih =>
    unfold splitP
    rw [ih (fun d hd => h d (List.mem_cons_of_mem c hd))]
    simp only []
    rw [if_neg (by simp [h c (List.mem_cons_self c cs)])]

theorem mem_of_mem_splitP (p : Char → Bool) (l : List Char) (part : List Char)
    (c : Char) (hpart : part ∈ splitP p l) (hc : c ∈ part) :
    c ∈ l ∧ p c = false := by
  induction l generalizing part with
  | nil =>
    simp only [splitP, List.mem_singleton] at hpart
    subst hpart
    simp at hc
  | cons c0 cs ih =>
    unfold splitP at hpart
    cases hs : splitP p cs with
    | nil => exact absurd hs (splitP_ne_nil p cs)
    | cons h t =>
      rw [hs] at hpart
      simp only [] at hpart
      by_cases hc0 : p c0 = true
      · rw [if_pos hc0] at hpart
        rcases List.mem_cons.mp hpart with rfl | hpart2
        · simp at hc
        · have := ih part (hs ▸ hpart2) hc
          exact ⟨List.mem_cons_of_mem c0 this.1, this.2⟩
      · rw [if_neg hc0] at hpart
        rcases List.mem_cons.mp hpart with rfl | hpart2
        · rcases List.mem_cons.mp hc with rfl | hc2
          · exact ⟨List.mem_cons_self _ _, by simpa using hc0⟩
          · have := ih h (hs ▸ List.mem_cons_self h t) hc2
            exact ⟨List.mem_cons_of_mem c0 this.1, this.2⟩
        · have := ih part (hs ▸ List.mem_cons_of_mem h hpart2) hc
          exact ⟨List.mem_cons_of_mem c0 this.1, this.2⟩

theorem mem_joinU (xs : List (List Char)) (c : Char) (h : c ∈ joinU xs) :
    c = '_' ∨ ∃ part ∈ xs, c ∈ part := by
  induction xs with
  | nil => simp [joinU] at h
  | cons x xs ih =>
    cases xs with
    | nil =>
      right
      exact ⟨x, List.mem_cons_self _ _, h⟩
    | cons y t =>
      have hexpand : joinU (x :: y :: t) = x ++ '_' :: joinU (y :: t) := rfl
      rw [hexpand] at h
      rcases List.mem_append.mp h with hx | hrest
      · exact Or.inr ⟨x, List.mem_cons_self _ _, hx⟩
      · rcases List.mem_cons.mp hrest with rfl | hj
        · exact Or.inl rfl
        · rcases ih hj with h1 | ⟨part, hp, hcp⟩
          · exact Or.inl h1
          · exact Or.inr ⟨part, List.mem_cons_of_mem x hp, hcp⟩

theorem mem_stepSplit (l : List Char) (c : Char) (h : c ∈ stepSplit l) :
    c = '_' ∨ (c ∈ l ∧ isSep c = false) := by
  unfold stepSplit at h
  rcases mem_joinU _ c h with h1 | ⟨part, hp, hcp⟩
  · exact Or.inl h1
  · have hp2 := List.mem_of_mem_filter hp
    rcases List.mem_map.mp hp2 with ⟨part0, hp0, rfl⟩
    have hcp0 : c ∈ part0 := mem_stripP isPySpace part0 c hcp
    exact Or.inr (mem_of_mem_splitP isSep l part0 c hp0 hcp0)

theorem stepSplit_eq_self (l : List Char) (hsep : ∀ c ∈ l, isSep c = false)
    (hne : l ≠ []) : stepSplit l = l := by
  have hspace : ∀ c ∈ l, isPySpace c = false := by
    intro c hc
    by_contra hsp
    have : isSep c = true := space_imp_sep c (by simpa using hsp)
    rw [hsep c hc] at this
    cases this
  unfold stepSplit
  rw [splitP_single isSep l hsep]
  rw [List.map_singleton, stripP_eq_self_of_all isPySpace l hspace]
  rw [List.filter_singleton]
  have hd : (decide (l ≠ [])) = true := by simpa using hne
  rw [hd]
  rfl

/-!  The shape invariants of sanitized names. -/

/-- No dot occurs in the list. -/
def NoDot (l : List Char) : Prop := '.' ∉ l

/-- Every dot is the one of a final .json suffix. -/
def DotsOk (l : List Char) : Prop :=
  NoDot l ∨ ∃ l1, NoDot l1 ∧ l = l1 ++ ['.', 'j', 's', 'o', 'n']

/-- No two adjacent underscores. -/
def NoDD (l : List Char) : Prop :=
  l.Chain' (fun a b => ¬(a = '_' ∧ b = '_'))

instance (l : List Char) : Decidable (NoDot l) := by
  unfold NoDot; infer_instance

instance (l : List Char) : Decidable (NoDD l) := by
  unfold NoDD; infer_instance

theorem mem_dotSub (l : List Char) (c : Char) (h : c ∈ dotSub l) :
    c = '_' ∨ c ∈ l := by
  induction l with
  | nil => simp [dotSub] at h
  | cons c0 rest ih =>
    unfold dotSub at h
    by_cases h0 : c0 = '.'
    · rw [if_pos h0] at h
      by_cases hj : rest = ['j', 's', 'o', 'n']
      · rw [if_pos hj] at h
        exact Or.inr h
      · rw [if_neg hj] at h
        rcases List.mem_cons.mp h with rfl | h2
        · exact Or.inl rfl
        · rcases ih h2 with h3 | h3
          · exact Or.inl h3
          · exact Or.inr (List.mem_cons_of_mem c0 h3)
    · rw [if_neg h0] at h
      rcases List.mem_cons.mp h with rfl | h2
      · exact Or.inr (List.mem_cons_self _ _)
      · rcases ih h2 with h3 | h3
        · exact Or.inl h3
        · exact Or.inr (List.mem_cons_of_mem c0 h3)

theorem dotsOk_dotSub (l : List Char) : DotsOk (dotSub l) := by
  induction l with
  | nil => exact Or.inl (by simp [NoDot, dotSub])
  | cons c0 rest ih =>
    unfold dotSub
    by_cases h0 : c0 = '.'
    · rw [if_pos h0]
      by_cases hj : rest = ['j', 's', 'o', 'n']
      · rw [if_pos hj]
        subst hj
        subst h0
        exact Or.inr ⟨[], by simp [NoDot], rfl⟩
      · rw [if_neg hj]
        rcases ih with h1 | ⟨l1, hl1, heq⟩
        · exact Or.inl (by
            intro hmem
            rcases List.mem_cons.mp hmem with he | he
            · exact absurd he.symm (by decide)
            · exact h1 he)
        · refine Or.inr ⟨'_' :: l1, ?_, by rw [heq]; rfl⟩
          intro hmem
          rcases List.mem_cons.mp hmem with he | he
          · exact absurd he.symm (by decide)
          · exact hl1 he
    · rw [if_neg h0]
      rcases ih with h1 | ⟨l1, hl1, heq⟩
      · exact Or.inl (by
          intro hmem
          rcases List.mem_cons.mp hmem with he | he
          · exact h0 he.symm
          · exact h1 he)
      · refine Or.inr ⟨c0 :: l1, ?_, by rw [heq]; rfl⟩
        intro hmem
        rcases List.mem_cons.mp hmem with he | he
        · exact h0 he.symm
        · exact hl1 he

theorem dotSub_eq_self_of_noDot (l : List Char) (h : NoDot l) : dotSub l = l := by
  induction l with
  | nil => rfl
  | cons c0 rest ih =>
    unfold NoDot at h
    have h0 : c0 ≠ '.' := fun he => h (he ▸ List.mem_cons_self _ _)
    unfold dotSub
    rw [if_neg (fun he => h0 he)]
    rw [ih (fun hmem => h (List.mem_cons_of_mem c0 hmem))]

theorem dotSub_eq_self (l : List Char) (h : DotsOk l) : dotSub l = l := by
  rcases h with h1 | ⟨l1, hl1, rfl⟩
  · exact dotSub_eq_self_of_noDot l h1
  · induction l1 with
    | nil => decide
    | cons a l1 ih =>
      have ha : a ≠ '.' := fun he => hl1 (he ▸ List.mem_cons_self _ _)
      have hl1rest : NoDot l1 := fun hmem => hl1 (List.mem_cons_of_mem a hmem)
      show dotSub (a :: (l1 ++ ['.', 'j', 's', 'o', 'n'])) =
        a :: (l1 ++ ['.', 'j', 's', 'o', 'n'])
      unfold dotSub
      rw [if_neg (fun he => ha he)]
      rw [ih hl1rest]

theorem mem_collapseU (l : List Char) (c : Char) (h : c ∈ collapseU l) : c ∈ l := by
  induction l with
  | nil => simp [collapseU] at h
  | cons a tail ih =>
    cases tail with
    | nil => simpa [collapseU] using h
    | cons b rest =>
      unfold collapseU at h
      by_cases hab : a = '_' ∧ b = '_'
      · rw [if_pos hab] at h
        exact List.mem_cons_of_mem a (ih h)
      · rw [if_neg hab] at h
        rcases List.mem_cons.mp h with rfl | h2
        · exact List.mem_cons_self _ _
        · exact List.mem_cons_of_mem a (ih h2)

theorem collapseU_head (b : Char) (rest : List Char) :
    (collapseU (b :: rest)).head? = some b := by
  induction rest generalizing b with
  | nil => rfl
  | cons c rest2 ih =>
    unfold collapseU
    by_cases hbc : b = '_' ∧ c = '_'
    · rw [if_pos hbc]
      rw [ih c]
      rw [hbc.1, hbc.2]
    · rw [if_neg hbc]
      rfl

theorem noDD_collapseU (l : List Char) : NoDD (collapseU l) := by
  induction l with
  | nil => exact List.chain'_nil
  | cons a tail ih =>
    cases tail with
    | nil => simp [collapseU, NoDD]
    | cons b rest =>
      unfold collapseU
      by_cases hab : a = '_' ∧ b = '_'
      · rw [if_pos hab]
        exact ih
      · rw [if_neg hab]
        unfold NoDD
        rw [List.chain'_cons']
        refine ⟨?_, ih⟩
        intro h hh
        rw [collapseU_head b rest] at hh
        cases hh
        exact hab

theorem collapseU_eq_self (l : List Char) (h : NoDD l) : collapseU l = l := by
  induction l with
  | nil => rfl
  | cons a tail ih =>
    cases tail with
    | nil => rfl
    | cons b rest =>
      unfold NoDD at h
      rw [List.chain'_cons] at h
      unfold collapseU
      rw [if_neg h.1]
      rw [ih h.2]

theorem collapseU_append_block (xs : List Char) :
    collapseU (xs ++ ['.', 'j', 's', 'o', 'n']) =
      collapseU xs ++ ['.', 'j', 's', 'o', 'n'] := by
  induction xs with
  | nil => decide
  | cons a xs2 ih =>
    cases xs2 with
    | nil =>
      show collapseU (a :: '.' :: ['j', 's', 'o', 'n']) = [a] ++ _
      unfold collapseU
      rw [if_neg (by rintro ⟨_, h⟩; exact absurd h (by decide))]
      norm_num
      decide
    | cons b xs3 =>
      show collapseU (a :: b :: (xs3 ++ ['.', 'j', 's', 'o', 'n'])) =
        collapseU (a :: b :: xs3) ++ ['.', 'j', 's', 'o', 'n']
      unfold collapseU
      by_cases hab : a = '_' ∧ b = '_'
      · rw [if_pos hab, if_pos hab]
        exact ih
      · rw [if_neg hab, if_neg hab]
        rw [List.cons_append]
        exact congrArg (fun z => a :: z) ih

theorem noDot_mono (l1 l2 : List Char) (hsub : ∀ c ∈ l1, c ∈ l2) (h : NoDot l2) :
    NoDot l1 :=
  fun hmem => h (hsub '.' hmem)

theorem dotsOk_collapseU (l : List Char) (h : DotsOk l) : DotsOk (collapseU l) := by
  rcases h with h1 | ⟨l1, hl1, rfl⟩
  · exact Or.inl (noDot_mono _ l (mem_collapseU l) h1)
  · rw [collapseU_append_block l1]
    exact Or.inr ⟨collapseU l1, noDot_mono _ l1 (mem_collapseU l1) hl1, rfl⟩

theorem dotsOk_dropWhile_dotU (l : List Char) (h : DotsOk l) :
    DotsOk (l.dropWhile isDotU) := by
  rcases h with h1 | ⟨l1, hl1, rfl⟩
  · exact Or.inl (noDot_mono _ l (fun c hc => List.dropWhile_subset _ hc) h1)
  · induction l1 with
    | nil =>
      show DotsOk (List.dropWhile isDotU ['.', 'j', 's', 'o', 'n'])
      exact Or.inl (by decide)
    | cons a l1' ih =>
      have hrest : NoDot l1' := fun hmem => hl1 (List.mem_cons_of_mem a hmem)
      by_cases ha : isDotU a = true
      · rw [List.cons_append, List.dropWhile_cons_of_pos ha]
        exact ih hrest
      · rw [List.cons_append, List.dropWhile_cons_of_neg (by simpa using ha)]
        exact Or.inr ⟨a :: l1', hl1, rfl⟩

theorem dotsOk_dropEnd_dotU (l : List Char) (h : DotsOk l) :
    DotsOk (dropEnd isDotU l) := by
  rcases h with h1 | ⟨l1, hl1, rfl⟩
  · exact Or.inl (noDot_mono _ l (mem_dropEnd isDotU l) h1)
  · rw [dropEnd_eq_self_of_getLast isDotU _ ?_]
    · exact Or.inr ⟨l1, hl1, rfl⟩
    · intro g hg
      rw [List.getLast?_append] at hg
      simp only [Option.or] at hg
      cases hg
      decide

theorem dotsOk_stripP_dotU (l : List Char) (h : DotsOk l) :
    DotsOk (stripP isDotU l) :=
  dotsOk_dropEnd_dotU _ (dotsOk_dropWhile_dotU l h)

/-!  Lemmas about the reserved-name step. -/

theorem head?_append_left {α : Type} (l1 l2 : List α) (h : l1 ≠ []) :
    (l1 ++ l2).head? = l1.head? := by
  cases l1 with
  | nil => exact absurd rfl h
  | cons a t => rfl

theorem reserved_ne_nil (l : List Char) (h : isReserved l = true) : l ≠ [] := by
  intro hnil
  subst hnil
  exact absurd h (by decide)

theorem reserved_chars (l : List Char) (h : isReserved l = true) :
    ∀ c ∈ l, isPySpace c = false ∧ isInvalid c = false ∧ isDotU c = false := by
  unfold isReserved at h
  rw [decide_eq_true_eq] at h
  intro c hc
  have hmem : pyUpperChar c ∈ l.map pyUpperChar := List.mem_map_of_mem pyUpperChar hc
  have hRU : ∀ r ∈ reservedNames, ∀ u ∈ r,
      isPySpace u = false ∧ isInvalid u = false ∧ isDotU u = false := by decide
  have hu := hRU _ h (pyUpperChar c) hmem
  have fix_space : isPySpace c = true → pyUpperChar c = c := by
    intro hs
    unfold pyUpperChar
    rw [if_neg]
    unfold isPySpace at hs
    rw [decide_eq_true_eq] at hs
    omega
  have fix_invalid : isInvalid c = true → pyUpperChar c = c := by
    intro hs
    unfold pyUpperChar
    rw [if_neg]
    unfold isInvalid at hs
    rw [decide_eq_true_eq] at hs
    omega
  have fix_dotU : isDotU c = true → pyUpperChar c = c := by
    intro hs
    unfold isDotU at hs
    rw [decide_eq_true_eq] at hs
    rcases hs with rfl | rfl
    · decide
    · decide
  refine ⟨?_, ?_, ?_⟩
  · cases hs : isPySpace c with
    | false => rfl
    | true =>
      rw [fix_space hs] at hu
      rw [hu.1] at hs
      cases hs
  · cases hs : isInvalid c with
    | false => rfl
    | true =>
      rw [fix_invalid hs] at hu
      rw [hu.2.1] at hs
      cases hs
  · cases hs : isDotU c with
    | false => rfl
    | true =>
      rw [fix_dotU hs] at hu
      rw [hu.2.2] at hs
      cases hs

theorem reserved_length (l : List Char) (h : isReserved l = true) : l.length ≤ 4 := by
  unfold isReserved at h
  rw [decide_eq_true_eq] at h
  have hlen : ∀ r ∈ reservedNames, r.length ≤ 4 := by decide
  have := hlen _ h
  simpa using this

theorem long_not_reserved (l : List Char) (h : 5 ≤ l.length) :
    isReserved l = false := by
  cases hr : isReserved l with
  | false => rfl
  | true =>
    have := reserved_length l hr
    omega

theorem stripP_dotU_reserved_append (r : List Char) (h : isReserved r = true) :
    stripP isDotU (r ++ ['_']) = r := by
  have hch := reserved_chars r h
  have hne := reserved_ne_nil r h
  unfold stripP
  rw [dropWhile_eq_self_of_head isDotU (r ++ ['_']) ?_]
  · unfold dropEnd
    rw [List.reverse_append]
    show (List.dropWhile isDotU ('_' :: r.reverse)).reverse = r
    rw [List.dropWhile_cons_of_pos (by decide)]
    rw [dropWhile_eq_self_of_head isDotU r.reverse ?_]
    · exact r.reverse_reverse
    · intro c hc
      rw [List.head?_reverse] at hc
      exact (hch c (getLast_mem_of_getLast? r c hc)).2.2
  · intro c hc
    rw [head?_append_left r ['_'] hne] at hc
    exact (hch c (head_mem_of_head? r c hc)).2.2

theorem noDD_append_underscore (r : List Char) (h : ∀ c ∈ r, c ≠ '_') :
    NoDD (r ++ ['_']) := by
  induction r with
  | nil => simp [NoDD]
  | cons a r' ih =>
    unfold NoDD
    rw [List.cons_append, List.chain'_cons']
    refine ⟨?_, ih (fun c hc => h c (List.mem_cons_of_mem a hc))⟩
    intro x _
    intro hcon
    exact h a (List.mem_cons_self a r') hcon.1

theorem reserved_append_noDD (r : List Char) (h : isReserved r = true) :
    NoDD (r ++ ['_']) := by
  refine noDD_append_underscore r (fun c hc he => ?_)
  have := (reserved_chars r h c hc).2.2
  rw [he] at this
  exact absurd this (by decide)

theorem reserved_append_noDot (r : List Char) (h : isReserved r = true) :
    NoDot (r ++ ['_']) := by
  intro hmem
  rcases List.mem_append.mp hmem with hr | hu
  · have := (reserved_chars r h '.' hr).2.2
    exact absurd this (by decide)
  · simp at hu

/-!  The full invariant of sanitized names, and the truncation step. -/

/-- A character that survives sanitization: neither whitespace nor in the
invalid class. -/
def GoodChar (c : Char) : Prop := isPySpace c = false ∧ isInvalid c = false

/-- The first character, when present, is no dot or underscore. -/
def HeadOk (s : List Char) : Prop := ∀ h, s.head? = some h → isDotU h = false

/-- The last character, when present, is no dot or underscore. -/
def LastOk (s : List Char) : Prop := ∀ g, s.getLast? = some g → isDotU g = false

/-- The invariant every output of _sanitize_filename satisfies, and on
which _sanitize_filename is the identity. -/
def Clean (s : List Char) : Prop :=
  s ≠ [] ∧ (∀ c ∈ s, GoodChar c) ∧ NoDD s ∧ DotsOk s ∧ HeadOk s ∧
  ((LastOk s ∧ isReserved s = false) ∨ ∃ r, isReserved r = true ∧ s = r ++ ['_']) ∧
  s.length ≤ 249

theorem rfindU_none_not_mem (l : List Char) (h : rfindU l = none) : '_' ∉ l := by
  induction l with
  | nil => simp
  | cons c cs ih =>
    unfold rfindU at h
    cases hcs : rfindU cs with
    | some j => rw [hcs] at h; simp at h
    | none =>
      rw [hcs] at h
      by_cases hc : c = '_'
      · rw [if_pos hc] at h; simp at h
      · rw [if_neg hc] at h
        intro hmem
        rcases List.mem_cons.mp hmem with he | he
        · exact hc he.symm
        · exact ih hcs he

theorem rfindU_lt (l : List Char) (i : Nat) (h : rfindU l = some i) :
    i < l.length := by
  induction l generalizing i with
  | nil => simp [rfindU] at h
  | cons c cs ih =>
    unfold rfindU at h
    cases hcs : rfindU cs with
    | some j =>
      rw [hcs] at h
      cases h
      have := ih j hcs
      simp only [List.length_cons]
      omega
    | none =>
      rw [hcs] at h
      by_cases hc : c = '_'
      · rw [if_pos hc] at h
        cases h
        simp
      · rw [if_neg hc] at h; cases h

theorem rfindU_get (l : List Char) (i : Nat) (h : rfindU l = some i) :
    l[i]? = some '_' := by
  induction l generalizing i with
  | nil => simp [rfindU] at h
  | cons c cs ih =>
    unfold rfindU at h
    cases hcs : rfindU cs with
    | some j =>
      rw [hcs] at h
      cases h
      simpa using ih j hcs
    | none =>
      rw [hcs] at h
      by_cases hc : c = '_'
      · rw [if_pos hc] at h
        cases h
        simp [hc]
      · rw [if_neg hc] at h; cases h

theorem rfindU_after (l : List Char) (i : Nat) (h : rfindU l = some i)
    (j : Nat) (hj : i < j) : l[j]? ≠ some '_' := by
  induction l generalizing i j with
  | nil => simp
  | cons c cs ih =>
    unfold rfindU at h
    cases hcs : rfindU cs with
    | some k =>
      rw [hcs] at h
      cases h
      cases j with
      | zero => omega
      | succ j2 =>
        intro hbad
        rw [List.getElem?_cons_succ] at hbad
        exact ih k hcs j2 (by omega) hbad
    | none =>
      rw [hcs] at h
      by_cases hc : c = '_'
      · rw [if_pos hc] at h
        cases h
        cases j with
        | zero => omega
        | succ j2 =>
          intro hbad
          rw [List.getElem?_cons_succ] at hbad
          exact rfindU_none_not_mem cs hcs (List.getElem?_mem hbad)
      · rw [if_neg hc] at h; cases h

theorem head?_take_pos {α : Type} (l : List α) (n : Nat) (h : 0 < n) :
    (l.take n).head? = l.head? := by
  cases l with
  | nil => simp
  | cons a t =>
    cases n with
    | zero => omega
    | succ n2 => rfl

/-- Clean survives a prefix cut of length k when the character before the
cut is no underscore and, when the name carries a .json tail, the cut
stays inside the stem. -/
theorem clean_take (m : List Char) (k : Nat)
    (hgood : ∀ c ∈ m, GoodChar c) (hdd : NoDD m) (hdots : DotsOk m)
    (hhead : HeadOk m) (hk5 : 5 ≤ k) (hk2 : k ≤ 249) (hmlen : 249 < m.length)
    (hlast_u : m[k - 1]? ≠ some '_')
    (hblock : ∀ l1, m = l1 ++ ['.', 'j', 's', 'o', 'n'] → k ≤ l1.length) :
    Clean (m.take k) := by
  have hklen : (m.take k).length = k := by
    rw [List.length_take]
    omega
  have hne : m.take k ≠ [] := by
    intro hnil
    rw [hnil] at hklen
    simp at hklen
    omega
  have hgetLast : (m.take k).getLast? = m[k - 1]? := by
    rw [List.getLast?_eq_getElem?, hklen, List.getElem?_take_of_lt (by omega)]
  refine ⟨hne, ?_, ?_, ?_, ?_, ?_, ?_⟩
  · exact fun c hc => hgood c (List.take_subset k m hc)
  · exact List.Chain'.prefix hdd (List.take_prefix k m)
  · left
    rcases hdots with h1 | ⟨l1, hl1, heq⟩
    · exact noDot_mono _ m (fun c hc => List.take_subset k m hc) h1
    · have hkl1 := hblock l1 heq
      rw [heq, List.take_append_of_le_length hkl1]
      exact noDot_mono _ l1 (fun c hc => List.take_subset k l1 hc) hl1
  · intro h hh
    rw [head?_take_pos m k (by omega)] at hh
    exact hhead h hh
  · left
    constructor
    · intro g hg
      rw [hgetLast] at hg
      have hgu : g ≠ '_' := by
        intro he
        rw [he] at hg
        exact hlast_u hg
      have hgdot : g ≠ '.' := by
        rcases hdots with h1 | ⟨l1, hl1, heq⟩
        · intro he
          rw [he] at hg
          exact h1 (List.getElem?_mem hg)
        · have hkl1 := hblock l1 heq
          rw [heq, List.getElem?_append_left (by omega)] at hg
          intro he
          rw [he] at hg
          exact hl1 (List.getElem?_mem hg)
      unfold isDotU
      rw [decide_eq_false_iff_not]
      rintro (he | he)
      · exact hgdot he
      · exact hgu he
    · exact long_not_reserved _ (by omega)
  · omega

theorem map_eq_self_of {α : Type} (f : α → α) (l : List α)
    (h : ∀ c ∈ l, f c = c) : l.map f = l := by
  induction l with
  | nil => rfl
  | cons a t ih =>
    rw [List.map_cons, h a (List.mem_cons_self a t),
      ih (fun c hc => h c (List.mem_cons_of_mem a hc))]

theorem noDD_getElem (l : List Char) (h : NoDD l) (j : Nat)
    (h1 : l[j]? = some '_') (h2 : l[j + 1]? = some '_') : False := by
  induction l generalizing j with
  | nil => simp at h1
  | cons a t ih =>
    cases j with
    | zero =>
      rw [List.getElem?_cons_zero] at h1
      cases h1
      rw [List.getElem?_cons_succ] at h2
      cases t with
      | nil => simp at h2
      | cons b t2 =>
        rw [List.getElem?_cons_zero] at h2
        cases h2
        unfold NoDD at h
        rw [List.chain'_cons] at h
        exact h.1 ⟨rfl, rfl⟩
    | succ j2 =>
      rw [List.getElem?_cons_succ] at h1
      rw [List.getElem?_cons_succ] at h2
      have ht : NoDD t := by
        unfold NoDD at h ⊢
        exact h.tail
      exact ih ht j2 h1 h2

theorem stripP_within (p : Char → Bool) (l : List Char) : stripP p l <:+: l := by
  unfold stripP
  rcases dropEnd_pref p (l.dropWhile p) with ⟨t, ht⟩
  rcases List.dropWhile_suffix (l := l) p with ⟨s2, hs⟩
  refine ⟨s2, t, ?_⟩
  rw [List.append_assoc, ht, hs]

/-- The last two steps of the pipeline turn any stripped, good-character,
no-double-underscore, dots-ok nonempty name into a Clean one. -/
theorem reserved_truncate_clean (m : List Char)
    (hg : ∀ c ∈ m, GoodChar c) (hdd : NoDD m) (hdots : DotsOk m)
    (hhead : HeadOk m) (hlast : LastOk m) (hne : m ≠ []) :
    Clean (truncateName (reservedStep m)) := by
  by_cases hres : isReserved m = true
  · have hlen : m.length ≤ 4 := reserved_length m hres
    have hstep : reservedStep m = m ++ ['_'] := by
      unfold reservedStep
      rw [if_pos hres]
    rw [hstep]
    have hlen7 : (m ++ ['_']).length = m.length + 1 := by simp
    have htr : truncateName (m ++ ['_']) = m ++ ['_'] := by
      unfold truncateName
      rw [if_neg (by omega)]
    rw [htr]
    refine ⟨by simp, ?_, reserved_append_noDD m hres,
      Or.inl (reserved_append_noDot m hres), ?_, Or.inr ⟨m, hres, rfl⟩, by omega⟩
    · intro c hc
      rcases List.mem_append.mp hc with hcm | hcu
      · exact hg c hcm
      · simp at hcu
        subst hcu
        exact ⟨by decide, by decide⟩
    · intro h hh
      rw [head?_append_left m ['_'] hne] at hh
      exact hhead h hh
  · have hresF : isReserved m = false := by simpa using hres
    have hstep : reservedStep m = m := by
      unfold reservedStep
      rw [if_neg hres]
    rw [hstep]
    by_cases hlong : m.length > 249
    · have htlen : (m.take 249).length = 249 := by
        rw [List.length_take]
        omega
      cases hfind : rfindU (m.take 249) with
      | some i =>
        by_cases hi : i > 124
        · have hil : i < 249 := by
            have := rfindU_lt _ i hfind
            rw [htlen] at this
            exact this
          have htr : truncateName m = m.take i := by
            unfold truncateName
            rw [if_pos hlong, hfind]
            simp only []
            rw [if_pos hi, List.take_take]
            congr 1
            omega
          have hU : m[i]? = some '_' := by
            have := rfindU_get _ i hfind
            rwa [List.getElem?_take_of_lt hil] at this
          rw [htr]
          refine clean_take m i hg hdd hdots hhead (by omega) (by omega) hlong ?_ ?_
          · intro hbad
            have h2 : m[(i - 1) + 1]? = some '_' := by
              have he : i - 1 + 1 = i := by omega
              rw [he]
              exact hU
            exact noDD_getElem m hdd (i - 1) hbad h2
          · intro l1 heq
            by_contra hcon
            push_neg at hcon
            have hlen5 : m.length = l1.length + 5 := by
              rw [heq]
              simp
            have hged : l1.length ≤ i := by omega
            rw [heq, List.getElem?_append_right hged] at hU
            have hd : i - l1.length = 1 ∨ i - l1.length = 2 ∨ i - l1.length = 3 := by
              omega
            rcases hd with hd | hd | hd <;> rw [hd] at hU <;>
              exact absurd hU (by decide)
        · have htr : truncateName m = m.take 239 := by
            unfold truncateName
            rw [if_pos hlong, hfind]
            simp only []
            rw [if_neg hi, List.take_take]
            congr 1
          have hnu : m[238]? ≠ some '_' := by
            have h1 : (m.take 249)[238]? = m[238]? :=
              List.getElem?_take_of_lt (by omega)
            intro hbad
            exact rfindU_after _ i hfind 238 (by omega) (by rw [h1]; exact hbad)
          rw [htr]
          refine clean_take m 239 hg hdd hdots hhead (by omega) (by omega) hlong
            (by simpa using hnu) ?_
          intro l1 heq
          have hlen5 : m.length = l1.length + 5 := by
            rw [heq]
            simp
          omega
      | none =>
        have htr : truncateName m = m.take 239 := by
          unfold truncateName
          rw [if_pos hlong, hfind, List.take_take]
          congr 1
        have hnu : m[238]? ≠ some '_' := by
          intro hbad
          have h1 : (m.take 249)[238]? = some '_' := by
            rw [List.getElem?_take_of_lt (by omega)]
            exact hbad
          exact rfindU_none_not_mem _ hfind (List.getElem?_mem h1)
        rw [htr]
        refine clean_take m 239 hg hdd hdots hhead (by omega) (by omega) hlong
          (by simpa using hnu) ?_
        intro l1 heq
        have hlen5 : m.length = l1.length + 5 := by
          rw [heq]
          simp
        omega
    · have htr : truncateName m = m := by
        unfold truncateName
        rw [if_neg hlong]
      rw [htr]
      exact ⟨hne, hg, hdd, hdots, hhead, Or.inl ⟨hlast, hresF⟩, by omega⟩

/-- Every nonempty output of the transformation chain is Clean. -/
theorem sanitizePipeline_clean (name : List Char)
    (hne : sanitizePipeline name ≠ []) : Clean (sanitizePipeline name) := by
  have hm6ne : stripP isDotU (collapseU (dotSub (stepSplit
      ((stripP isPySpace name).map badRepl)))) ≠ [] := by
    intro h0
    apply hne
    show truncateName (reservedStep (stripP isDotU (collapseU (dotSub (stepSplit
      ((stripP isPySpace name).map badRepl)))))) = []
    rw [h0]
    decide
  have g2 : ∀ c ∈ (stripP isPySpace name).map badRepl, isInvalid c = false := by
    intro c hc
    rcases List.mem_map.mp hc with ⟨d, hd, rfl⟩
    exact badRepl_not_invalid d
  have g3 : ∀ c ∈ stepSplit ((stripP isPySpace name).map badRepl), GoodChar c := by
    intro c hc
    rcases mem_stepSplit _ c hc with rfl | ⟨hcm, hsep⟩
    · exact ⟨by decide, by decide⟩
    · refine ⟨?_, g2 c hcm⟩
      cases hs : isPySpace c with
      | false => rfl
      | true =>
        rw [space_imp_sep c hs] at hsep
        cases hsep
  have g4 : ∀ c ∈ dotSub (stepSplit ((stripP isPySpace name).map badRepl)),
      GoodChar c := by
    intro c hc
    rcases mem_dotSub _ c hc with rfl | hcm
    · exact ⟨by decide, by decide⟩
    · exact g3 c hcm
  have g5 : ∀ c ∈ collapseU (dotSub (stepSplit ((stripP isPySpace name).map badRepl))),
      GoodChar c :=
    fun c hc => g4 c (mem_collapseU _ c hc)
  have g6 : ∀ c ∈ stripP isDotU (collapseU (dotSub (stepSplit
      ((stripP isPySpace name).map badRepl)))), GoodChar c :=
    fun c hc => g5 c (mem_stripP isDotU _ c hc)
  have d6 : DotsOk (stripP isDotU (collapseU (dotSub (stepSplit
      ((stripP isPySpace name).map badRepl))))) :=
    dotsOk_stripP_dotU _ (dotsOk_collapseU _ (dotsOk_dotSub _))
  have dd6 : NoDD (stripP isDotU (collapseU (dotSub (stepSplit
      ((stripP isPySpace name).map badRepl))))) :=
    List.Chain'.infix (noDD_collapseU _) (stripP_within isDotU _)
  have hh6 : HeadOk (stripP isDotU (collapseU (dotSub (stepSplit
      ((stripP isPySpace name).map badRepl))))) :=
    fun h hh => stripP_head_false isDotU _ h hh
  have hl6 : LastOk (stripP isDotU (collapseU (dotSub (stepSplit
      ((stripP isPySpace name).map badRepl))))) :=
    fun g hg => stripP_getLast_false isDotU _ g hg
  exact reserved_truncate_clean _ g6 dd6 d6 hh6 hl6 hm6ne

/-- Every success of _sanitize_filename returns a Clean name. -/
theorem sanitize_ok_clean (name s : List Char)
    (h : sanitize_filename name = .ok s) : Clean s := by
  have hclean := sanitizePipeline_clean name
  unfold sanitize_filename at h
  revert h
  generalize hp : sanitizePipeline name = P
  rw [hp] at hclean
  intro h
  split at h
  next h1 => cases h
  next h1 =>
    split at h
    next h2 => cases h
    next h2 =>
      split at h
      next h3 => cases h
      next h3 =>
        cases h
        exact hclean h3

/-- The transformation chain is the identity on Clean names. -/
theorem clean_pipeline_id (s : List Char) (h : Clean s) : sanitizePipeline s = s := by
  obtain ⟨hne, hg, hdd, hdots, hhead, hor, hlen⟩ := h
  have hspace : ∀ c ∈ s, isPySpace c = false := fun c hc => (hg c hc).1
  have hinv : ∀ c ∈ s, isInvalid c = false := fun c hc => (hg c hc).2
  have hsep : ∀ c ∈ s, isSep c = false :=
    fun c hc => good_not_sep c (hspace c hc) (hinv c hc)
  unfold sanitizePipeline
  rw [stripP_eq_self_of_all isPySpace s hspace]
  rw [map_eq_self_of badRepl s (fun c hc => by
    unfold badRepl
    rw [if_neg (by simp [hinv c hc])])]
  rw [stepSplit_eq_self s hsep hne]
  rw [dotSub_eq_self s hdots]
  rw [collapseU_eq_self s hdd]
  rcases hor with ⟨hlast, hresF⟩ | ⟨r, hres, rfl⟩
  · rw [stripP_eq_self isDotU s hhead hlast]
    unfold reservedStep
    rw [if_neg (by simp [hresF])]
    unfold truncateName
    rw [if_neg (by omega)]
  · rw [stripP_dotU_reserved_append r hres]
    unfold reservedStep
    rw [if_pos hres]
    unfold truncateName
    rw [if_neg (by omega)]

/-- _sanitize_filename succeeds and is the identity on Clean names. -/
theorem clean_sanitize_ok (s : List Char) (h : Clean s) :
    sanitize_filename s = .ok s := by
  have hpid := clean_pipeline_id s h
  obtain ⟨hne, hg, _, _, hhead, _, _⟩ := h
  unfold sanitize_filename
  have hcond1 : (s.isEmpty || s.all isPySpace) = false := by
    rw [Bool.or_eq_false_iff]
    constructor
    · cases s with
      | nil => exact absurd rfl hne
      | cons a t => rfl
    · cases s with
      | nil => exact absurd rfl hne
      | cons a t =>
        rw [List.all_cons, (hg a (List.mem_cons_self a t)).1]
        rfl
  rw [hcond1, if_neg Bool.false_ne_true]
  have hcond2 : stripP isDot s ≠ [] := by
    apply stripP_ne_nil_of_exists
    cases s with
    | nil => exact absurd rfl hne
    | cons a t =>
      refine ⟨a, List.mem_cons_self a t, ?_⟩
      have hdU : isDotU a = false := hhead a rfl
      cases hd : isDot a with
      | false => rfl
      | true =>
        unfold isDot at hd
        rw [decide_eq_true_eq] at hd
        unfold isDotU at hdU
        rw [decide_eq_false_iff_not] at hdU
        exact absurd (Or.inl hd) hdU
  rw [if_neg hcond2, hpid, if_neg hne]

/-- C5: filename sanitization is idempotent — whenever _sanitize_filename
succeeds on a name and returns s, running it again on s succeeds and
returns s itself. -/
theorem claim_C5 (name s : List Char) (h : sanitize_filename name = .ok s) :
    sanitize_filename s = .ok s :=
  clean_sanitize_ok s (sanitize_ok_clean name s h)

/-- C5 (witness): the theorem applied to the concrete name "My Template",
which sanitizes to "My_Template"; sanitizing again returns it unchanged. -/
theorem claim_C5_witness :
    sanitize_filename ("My_Template".toList) = .ok ("My_Template".toList) :=
  claim_C5 ("My Template".toList) ("My_Template".toList) (by rfl)

end Spec2Proof
